import Mathlib

/-!
Verification development for the version-resolution core of a package manager
(the `Solver` façade, its override controller, and the DFS aggregator found in
`poetry/puzzle/solver.py`).  The Python code is shallowly embedded: packages and
dependencies become structures, the shared mutable state of the traversal
(`seen`, `visited`, `back_edges`, the node store) becomes an explicit state
record threaded through the recursion, and fallible code returns `Option`.
Python `frozenset` fields are modelled as lists compared up to mutual
containment (`setEq`); object identity of dependency objects (used by the
`is not` edge-replay guard) is modelled by a numeric object id `oid` that value
equality (`depBeq`, Python `__eq__`) ignores.
-/

set_option autoImplicit false

/-- Version value: an ordered number together with an `is_unstable` flag.
The `stable` projection drops the unstable marker. -/
structure Version where
  num : Nat
  unstable : Bool
deriving DecidableEq, Repr

/-- Projection `version.stable` of the source's version objects. -/
def Version.stable (v : Version) : Version :=
  { v with unstable := false }

/-- Dependency: constraint is modelled as plain set membership over versions
(the spec describes it as "set membership over versions").  `oid` models Python
object identity and is ignored by value equality. -/
structure Dependency where
  oid : Nat
  name : String
  features : List String
  constraint : List Version
  groups : List String
  optional : Bool
  allowsPre : Bool
deriving DecidableEq, Repr

/-- Equality of string sets represented as lists (Python `frozenset` equality). -/
def setEq (a b : List String) : Bool :=
  a.all (fun x => b.contains x) && b.all (fun x => a.contains x)

/-- Value equality of dependencies (Python `Dependency.__eq__`): every field
except the object identity `oid`. -/
def depBeq (d e : Dependency) : Bool :=
  d.name == e.name && setEq d.features e.features && d.constraint == e.constraint
    && setEq d.groups e.groups && d.optional == e.optional && d.allowsPre == e.allowsPre

/-- Membership of a dependency in a list up to value equality (Python `in`). -/
def depMem (d : Dependency) (l : List Dependency) : Bool :=
  l.any (fun e => depBeq d e)

/-- Package: `name`, `features` (non-empty marks a feature package), `version`,
the mutable `requires` list, the extra dev-group requirements that only
`all_requires` sees, and the mutable `category` / `optional` attributes written
by the aggregator. -/
structure Package where
  name : String
  features : List String
  version : Version
  requires : List Dependency
  devRequires : List Dependency
  category : String
  optional : Bool
deriving DecidableEq, Repr

/-- Python `package.all_requires`. -/
def Package.allRequires (p : Package) : List Dependency :=
  p.requires ++ p.devRequires

/-- Complete name `name[features]` of a package, kept as a pair so that feature
sets compare as sets. -/
abbrev CName := String × List String

/-- Complete name of a package. -/
def cnOf (p : Package) : CName :=
  (p.name, p.features)

/-- Equality of complete names. -/
def cnBeq (a b : CName) : Bool :=
  a.1 == b.1 && setEq a.2 b.2

/-- Python `PackageSpecification.is_same_package_as`: same name and features. -/
def sameSpec (p q : Package) : Bool :=
  p.name == q.name && setEq p.features q.features

/-- Python `Package.__eq__`: same specification and same version. -/
def pkgBeq (p q : Package) : Bool :=
  sameSpec p q && p.version == q.version

/-- Python `Dependency.is_same_package_as(package)`: compares complete names. -/
def Dependency.sameAsPkg (d : Dependency) (p : Package) : Bool :=
  d.name == p.name && setEq d.features p.features

/-- DFS node identity: the triple `(complete_name, groups, optional)`. -/
abbrev NodeId := CName × List String × Bool

/-- Equality of node identities. -/
def idBeq (a b : NodeId) : Bool :=
  cnBeq a.1 b.1 && setEq a.2.1 b.2.1 && a.2.2 == b.2.2

/-- Visit states of the three-colour DFS (`VisitedState` in the source). -/
inductive VState where
  | Unvisited
  | PartVisited
  | Visited
deriving DecidableEq, Repr

/-- PackageNode: `pkgIdx` is the node's package's position in the global
context list (`0` is the root, `i + 1` is the i-th engine package); `pkg`
caches the package value at node-creation time (only its immutable fields are
ever read through the node).  `prevName` holds the parent node's `name`
(complete name), `prevDep` the edge used by the parent, `dep` the inherited
root-most edge (`self.dep or dependency`). -/
structure PNode where
  pkgIdx : Nat
  pkg : Package
  prevName : Option CName
  prevDep : Option Dependency
  dep : Option Dependency
  groups : List String
  optional : Bool
  category : String
  depth : Int
deriving DecidableEq, Repr

/-- Node identity of a node. -/
def nodeId (n : PNode) : NodeId :=
  (cnOf n.pkg, n.groups, n.optional)

/-- Root node constructor (`previous = previous_dep = dep = None`). -/
def mkRoot (root : Package) : PNode :=
  { pkgIdx := 0, pkg := root, prevName := none, prevDep := none, dep := none,
    groups := [], optional := true, category := "dev", depth := -1 }

/-- Child node constructor (`PackageNode(pkg, packages, seen, self, dependency,
self.dep or dependency)`). -/
def mkChild (i : Nat) (pkg : Package) (parent : PNode) (dependency : Dependency) : PNode :=
  { pkgIdx := i, pkg := pkg, prevName := some (cnOf parent.pkg),
    prevDep := some dependency, dep := some (parent.dep.getD dependency),
    groups := dependency.groups, optional := dependency.optional,
    category := if dependency.groups.contains "default" then "main" else "dev",
    depth := -1 }

/-- Placeholder package used as the default of total list indexing. -/
def dPkg : Package :=
  { name := "", features := [], version := { num := 0, unstable := false },
    requires := [], devRequires := [], category := "dev", optional := true }

/-- Placeholder node used as the default of total list indexing. -/
def dNode : PNode :=
  mkRoot dPkg

/-- Membership of a package in the shared `seen` list (Python `in`, which uses
`Package.__eq__`). -/
def seenHas (seen : List Package) (p : Package) : Bool :=
  seen.any (fun s => pkgBeq s p)

/-- Edge-replay guard of `PackageNode.reachable`: `self.dep and
self.previous_dep and self.previous_dep is not self.dep and
self.previous_dep.name == self.dep.name`. -/
def edgeReplay (n : PNode) : Bool :=
  match n.dep, n.prevDep with
  | some d, some pd => (pd.oid != d.oid) && pd.name == d.name
  | _, _ => false

/-- Length-2 cycle guard: `self.previous and self.previous.name ==
dependency.name` (the parent's complete name equals the dependency's plain
name, which requires an empty feature set). -/
def cycleGuard (n : PNode) (d : Dependency) : Bool :=
  match n.prevName with
  | some c => c.1 == d.name && c.2.isEmpty
  | none => false

/-- Candidate predicate of `PackageNode.reachable`: matching complete name and
either the constraint allows the version, or prereleases are allowed, the
version is unstable and its stable projection is allowed. -/
def depMatches (d : Dependency) (pkg : Package) : Bool :=
  cnBeq (cnOf pkg) (d.name, d.features)
    && (d.constraint.contains pkg.version
        || (d.allowsPre && pkg.version.unstable && d.constraint.contains pkg.version.stable))

/-- Deduplication guard of `reachable`: some already-collected child pairs the
same package name with the same dependency groups. -/
def dupChild (cs : List PNode) (pkg : Package) (d : Dependency) : Bool :=
  cs.any (fun c => c.pkg.name == pkg.name && setEq c.groups d.groups)

/-- Python `PackageNode.reachable()`.  `ctx` is the global package list (head:
root package, tail: the engine's resolved packages, which is the node's
`packages` field).  Returns the children list together with the updated shared
`seen` list. -/
def reachable (ctx : List Package) (n : PNode) (seen : List Package) :
    List PNode × List Package :=
  if seenHas seen n.pkg then ([], seen)
  else
    let seen := seen ++ [n.pkg]
    if edgeReplay n then ([], seen)
    else
      let children := n.pkg.allRequires.foldl (fun cs d =>
        if cycleGuard n d then cs
        else (List.range (ctx.length - 1)).foldl (fun cs2 j =>
          let pkg := ctx.getD (j + 1) dPkg
          if depMatches d pkg && !dupChild cs2 pkg d then
            cs2 ++ [mkChild (j + 1) pkg n d]
          else cs2) cs) []
      (children, seen)

/-- Shared mutable state of one DFS traversal: the store of expanded nodes (in
expansion order; node objects are referred to by their store index), the
`back_edges` and `visited` maps keyed by node identity, the topologically
sorted index list (built by prepending) and the shared `seen` list. -/
structure DfsState where
  store : List PNode
  backEdges : List (NodeId × List Nat)
  visited : List (NodeId × VState)
  sorted : List Nat
  seen : List Package
deriving Repr

/-- Empty traversal state. -/
def initState : DfsState :=
  { store := [], backEdges := [], visited := [], sorted := [], seen := [] }

/-- Lookup in the `visited` map. -/
def visGet (l : List (NodeId × VState)) (id : NodeId) : Option VState :=
  (l.find? (fun kv => idBeq kv.1 id)).map (fun kv => kv.2)

/-- Update of the `visited` map (replace the first matching key or append). -/
def visSet (l : List (NodeId × VState)) (id : NodeId) (s : VState) :
    List (NodeId × VState) :=
  match l with
  | [] => [(id, s)]
  | kv :: rest => if idBeq kv.1 id then (kv.1, s) :: rest else kv :: visSet rest id s

/-- Lookup in the `back_edges` map (`defaultdict(list)`). -/
def beGet (l : List (NodeId × List Nat)) (id : NodeId) : List Nat :=
  ((l.find? (fun kv => idBeq kv.1 id)).map (fun kv => kv.2)).getD []

/-- Append a parent index to a node identity's back-edge list. -/
def beAdd (l : List (NodeId × List Nat)) (id : NodeId) (idx : Nat) :
    List (NodeId × List Nat) :=
  match l with
  | [] => [(id, [idx])]
  | kv :: rest =>
    if idBeq kv.1 id then (kv.1, kv.2 ++ [idx]) :: rest else kv :: beAdd rest id idx

/-- Task of the DFS interpreter: either visit a node, or work through the
children loop of a node at a given store index. -/
inductive DfsTask where
  | visit (node : PNode)
  | children (cs : List PNode) (parentIdx : Nat)

/-- Python `dfs_visit` together with its loop over `node.reachable()`, written
as one fuel-indexed interpreter (structural recursion on the fuel so concrete
runs reduce in the kernel).  A `visit` task either returns early on a
`Visited` / `PartVisited` node (the cycle tolerance), or marks the node
`PartVisited`, stores it, runs `reachable`, processes the children and finally
marks the node `Visited` and prepends it to the topological list.  A
`children` task records each neighbour's back edge to the parent, recurses,
and aborts early when a recursive visit reports failure.  Fuel exhaustion
yields `none`; a sufficient concrete bound is proved below. -/
def dfsGo (fuel : Nat) (ctx : List Package) (task : DfsTask) (st : DfsState) :
    Option (Bool × DfsState) :=
  match fuel with
  | 0 => none
  | fuel' + 1 =>
    match task with
    | DfsTask.visit node =>
      match visGet st.visited (nodeId node) with
      | some VState.Visited => some (true, st)
      | some VState.PartVisited => some (true, st)
      | _ =>
        let idx := st.store.length
        let r := reachable ctx node st.seen
        let st2 : DfsState :=
          { st with visited := visSet st.visited (nodeId node) VState.PartVisited,
                    store := st.store ++ [node], seen := r.2 }
        match dfsGo fuel' ctx (DfsTask.children r.1 idx) st2 with
        | none => none
        | some (false, st3) => some (false, st3)
        | some (true, st3) =>
          some (true, { st3 with
            visited := visSet st3.visited (nodeId node) VState.Visited,
            sorted := idx :: st3.sorted })
    | DfsTask.children [] _ => some (true, st)
    | DfsTask.children (c :: rest) parentIdx =>
      let st1 : DfsState := { st with backEdges := beAdd st.backEdges (nodeId c) parentIdx }
      match dfsGo fuel' ctx (DfsTask.visit c) st1 with
      | none => none
      | some (false, st2) => some (false, st2)
      | some (true, st2) => dfsGo fuel' ctx (DfsTask.children rest parentIdx) st2

/-- Python `dfs_visit(source, back_edges, visited, topo_sorted_nodes)`. -/
def dfs_visit (fuel : Nat) (ctx : List Package) (node : PNode) (st : DfsState) :
    Option (Bool × DfsState) :=
  dfsGo fuel ctx (DfsTask.visit node) st

/-- Python `PackageNode.visit(parents)`: the depth becomes `1 + max(...)` over
the parents' contributions (`parent.depth`, or `parent.depth - 1` for a parent
with the same base name), with `-2` as the floor sentinel. -/
def PackageNode_visit (n : PNode) (parents : List PNode) : PNode :=
  { n with depth :=
      1 + (parents.map (fun p =>
            if p.pkg.name != n.pkg.name then p.depth else p.depth - 1)).foldr max (-2) }

/-- One step of the combination loop of `depth_first_search`: run
`node.visit(back_edges[node.id])` on the store node at `idx`. -/
def visitAt (backEdges : List (NodeId × List Nat)) (store : List PNode) (idx : Nat) :
    List PNode :=
  match store.get? idx with
  | none => store
  | some n =>
    let parents := (beGet backEdges (nodeId n)).map (fun p => store.getD p dNode)
    store.set idx (PackageNode_visit n parents)

/-- Extend the value list of a key of `name_children` (a `defaultdict(list)`). -/
def ncExtend (l : List (CName × List PNode)) (key : CName) (new : List PNode) :
    List (CName × List PNode) :=
  match l with
  | [] => [(key, new)]
  | kv :: rest =>
    if cnBeq kv.1 key then (kv.1, kv.2 ++ new) :: rest else kv :: ncExtend rest key new

/-- Lookup in `name_children`, defaulting to the empty list. -/
def ncGet (l : List (CName × List PNode)) (key : CName) : List PNode :=
  ((l.find? (fun kv => cnBeq kv.1 key)).map (fun kv => kv.2)).getD []

/-- Append an index to the value list of a key of `combined_nodes`. -/
def cnAppend (l : List (CName × List Nat)) (key : CName) (idx : Nat) :
    List (CName × List Nat) :=
  match l with
  | [] => [(key, [idx])]
  | kv :: rest =>
    if cnBeq kv.1 key then (kv.1, kv.2 ++ [idx]) :: rest else kv :: cnAppend rest key idx

/-- Remove a key from `combined_nodes` (the `pop` of the source). -/
def cnRemove (l : List (CName × List Nat)) (key : CName) : List (CName × List Nat) :=
  match l with
  | [] => []
  | kv :: rest => if cnBeq kv.1 key then rest else kv :: cnRemove rest key

/-- Result of the per-node combination loop of `depth_first_search`. -/
structure CombineOut where
  store : List PNode
  seen : List Package
  nameChildren : List (CName × List PNode)
  combined : List (CName × List Nat)

/-- Combination loop of `depth_first_search`: for each node of the topological
list in order, run `node.visit(back_edges[node.id])`, extend
`name_children[node.name]` with `node.reachable()` (a second call, on the
persisting shared `seen`), and append the node to `combined_nodes[node.name]`. -/
def combinePhase (ctx : List Package) (backEdges : List (NodeId × List Nat))
    (sorted : List Nat) (store : List PNode) (seen : List Package) : CombineOut :=
  sorted.foldl (fun acc idx =>
    let store1 := visitAt backEdges acc.store idx
    let n := store1.getD idx dNode
    let r := reachable ctx n acc.seen
    { store := store1, seen := r.2,
      nameChildren := ncExtend acc.nameChildren (cnOf n.pkg) r.1,
      combined := cnAppend acc.combined (cnOf n.pkg) idx })
    { store := store, seen := seen, nameChildren := [], combined := [] }

/-- Python list comprehension building `combined_topo_sorted_nodes`: walk the
topological list and pop each name's node group at its first occurrence. -/
def combinedTopo (store : List PNode) (sorted : List Nat)
    (combined : List (CName × List Nat)) : List (List Nat) :=
  (sorted.foldl (fun acc idx =>
    let key := cnOf (store.getD idx dNode).pkg
    match acc.2.find? (fun kv => cnBeq kv.1 key) with
    | some kv => (acc.1 ++ [kv.2], cnRemove acc.2 key)
    | none => acc) ([], combined)).1

/-- Python `aggregate_package_nodes(nodes, children)`: compute the maximal
depth, the category (`"main"` iff any node of `children + nodes` carries the
`"default"` group) and the optionality (the conjunction over
`children + nodes`), write them back onto every node and onto the underlying
package, and return the updated nodes, the updated package and the depth.
`none` models the `IndexError` on an empty node group. -/
def aggregate_package_nodes (nodes : List PNode) (children : List PNode) :
    Option (List PNode × Package × Int) :=
  match nodes with
  | [] => none
  | n0 :: _ =>
    let package := n0.pkg
    let depth := (nodes.map (fun n => n.depth)).foldr max n0.depth
    let category :=
      if (children ++ nodes).any (fun n => n.groups.contains "default") then "main" else "dev"
    let opt := (children ++ nodes).all (fun n => n.optional)
    let nodes' := nodes.map (fun n =>
      { n with depth := depth, category := category, optional := opt })
    let package' := { package with category := category, optional := opt }
    some (nodes', package', depth)

/-- Aggregation loop of `depth_first_search`: aggregate each name group,
write the updated nodes back into the store and the updated package back into
the global package list, and collect the `(package, depth)` results. -/
def aggLoop (nameChildren : List (CName × List PNode)) :
    List (List Nat) → List PNode → List Package → List (Package × Int) →
    Option (List (Package × Int) × List Package)
  | [], _, ctx, acc => some (acc, ctx)
  | group :: rest, store, ctx, acc =>
    let nodes := group.map (fun k => store.getD k dNode)
    match aggregate_package_nodes nodes (ncGet nameChildren (cnOf (nodes.getD 0 dNode).pkg)) with
    | none => none
    | some (nodes', package', depth) =>
      let store' := (group.zip nodes').foldl (fun s kn => s.set kn.1 kn.2) store
      let ctx' := ctx.set (nodes.getD 0 dNode).pkgIdx package'
      aggLoop nameChildren rest store' ctx' (acc ++ [(package', depth)])

/-- Python `depth_first_search(source, aggregator)` run from the root node over
`ctx = root :: packages`: the DFS proper, the combination loop, the grouping by
name and the aggregation.  Returns the aggregated `(package, depth)` list
together with the updated global package list (aggregation writes category and
optionality onto the underlying packages). -/
def depth_first_search (root : Package) (packages : List Package) (fuel : Nat) :
    Option (List (Package × Int) × List Package) :=
  let ctx := root :: packages
  match dfs_visit fuel ctx (mkRoot root) initState with
  | none => none
  | some (_, st) =>
    let co := combinePhase ctx st.backEdges st.sorted st.store st.seen
    let groups := combinedTopo co.store st.sorted co.combined
    aggLoop co.nameChildren groups co.store ctx []

/-- Inner loop of the feature-merge pass: add every dependency of the feature
package `p` that does not refer to `q` itself and is not already present to
`q.requires`. -/
def addFeatureDeps (q p : Package) : Package :=
  p.requires.foldl (fun q' d =>
    if d.sameAsPkg q' then q'
    else if depMem d q'.requires then q'
    else { q' with requires := q'.requires ++ [d] }) q

/-- One step of the feature-merge pass of `_solve`: if the package at position
`i` is a feature package, push its requirements into every other package of
the same name and version that is not the same package specification. -/
def featureStep (ps : List Package) (i : Nat) : List Package :=
  match ps.get? i with
  | none => ps
  | some p =>
    if p.features.isEmpty then ps
    else
      (List.range ps.length).foldl (fun acc j =>
        match acc.get? j with
        | none => acc
        | some q =>
          if q.name == p.name && !sameSpec q p && q.version == p.version then
            acc.set j (addFeatureDeps q p)
          else acc) ps

/-- Feature-merge pass of `_solve` over the whole engine result, visiting the
packages in their original order. -/
def featureMergePass (ps : List Package) : List Package :=
  (List.range ps.length).foldl featureStep ps

/-- Dictionary lookup `results[package]` (keys compare with `Package.__eq__`). -/
def resultsGet (results : List (Package × Int)) (p : Package) : Option Int :=
  (results.find? (fun e => pkgBeq e.1 p)).map (fun e => e.2)

/-- Emission loop of `_solve`: walk the (merged) engine result in order, skip
feature packages, and pair every other package with its depth from the DFS
results; `none` models the `KeyError` on a package missing from the results. -/
def emitFinal (results : List (Package × Int)) : List Package → Option (List (Package × Int))
  | [] => some []
  | p :: rest =>
    if p.features.isEmpty then
      match resultsGet results p with
      | some d => (emitFinal results rest).map (fun l => (p, d) :: l)
      | none => none
    else emitFinal results rest

/-- Post-engine part of `Solver._solve`: run the DFS aggregation from the root
node, apply the feature-merge pass to the (possibly category-updated) engine
packages, and emit the non-feature packages with their depths, preserving the
engine's original order. -/
def solvePost (root : Package) (packages : List Package) (fuel : Nat) :
    Option (List Package × List Int) :=
  match depth_first_search root packages fuel with
  | none => none
  | some (results, ctx') =>
    let merged := featureMergePass (ctx'.drop 1)
    match emitFinal results merged with
    | none => none
    | some pairs => some (pairs.map (fun e => e.1), pairs.map (fun e => e.2))

/-- Unrecoverable engine failure (`SolveFailure`), carrying a diagnostic. -/
structure SolveFailure where
  msg : String
deriving DecidableEq, Repr

/-- User-visible solver error wrapping the engine failure
(`SolverProblemError(e)`). -/
structure SolverProblemError where
  failure : SolveFailure
deriving DecidableEq, Repr

/-- Override map suggested by the engine (`OverrideNeeded.overrides` entries);
its contents are opaque to the merge logic. -/
structure Override where
  pins : List (String × Version)
deriving DecidableEq, Repr

/-- Outcome of `resolve_version` (the external mixology engine): a resolved
package list, an `OverrideNeeded` with suggested overrides, or a
`SolveFailure`. -/
inductive EngineOutcome where
  | ok (packages : List Package)
  | overrideNeeded (overrides : List Override)
  | failed (e : SolveFailure)
deriving Repr

/-- Union of requirements in the override merge: every dependency of the new
package that is missing from the previously stored package is added
(`pkg.add_dependency(dep)`). -/
def addMissingDeps (stored newPkg : Package) : Package :=
  newPkg.requires.foldl (fun q d =>
    if depMem d q.requires then q
    else { q with requires := q.requires ++ [d] }) stored

/-- Python `packages.index(package)`: position of the first stored entry whose
package equals the probe (`Package.__eq__`). -/
def idxOf? (p : Package) : List (Package × Int) → Option Nat
  | [] => none
  | e :: rest => if pkgBeq p e.1 then some 0 else (idxOf? p rest).map (fun i => i + 1)

/-- One step of the merge loop of `solve_in_compatibility_mode`: a package not
yet present is appended with its depth; a present package keeps its position,
its depth becomes the maximum of stored and new, and its requirements are
unioned. -/
def mergeStep (acc : List (Package × Int)) (pd : Package × Int) : List (Package × Int) :=
  match idxOf? pd.1 acc with
  | none => acc ++ [pd]
  | some idx =>
    match acc.get? idx with
    | none => acc
    | some stored => acc.set idx (addMissingDeps stored.1 pd.1, max stored.2 pd.2)

/-- Python `Solver.solve_in_compatibility_mode(overrides)`: re-run the inner
solve once per override (`innerSolve` models the recursive `_solve` call under
`set_overrides`) and merge the per-override `(packages, depths)` results into
the cumulative parallel lists. -/
def solve_in_compatibility_mode (overrides : List Override)
    (innerSolve : Override → List Package × List Int) : List Package × List Int :=
  let merged := overrides.foldl (fun acc ov =>
    let r := innerSolve ov
    (r.1.zip r.2).foldl mergeStep acc) []
  (merged.map (fun e => e.1), merged.map (fun e => e.2))

/-- Python `Solver._solve` seen from its exception structure: the engine
outcome is dispatched to the `OverrideNeeded` recovery (delegation to
`solve_in_compatibility_mode`), to the `SolveFailure` wrapping
(`raise SolverProblemError(e)`), or to the DFS post-processing.  The outer
`Option` models the fuel and the `KeyError` of the post-processing. -/
def solveCore (root : Package) (outcome : EngineOutcome)
    (innerSolve : Override → List Package × List Int) (fuel : Nat) :
    Option (Except SolverProblemError (List Package × List Int)) :=
  match outcome with
  | EngineOutcome.overrideNeeded ovs =>
    some (Except.ok (solve_in_compatibility_mode ovs innerSolve))
  | EngineOutcome.failed e => some (Except.error { failure := e })
  | EngineOutcome.ok packages =>
    (solvePost root packages fuel).map Except.ok

/-! Concrete fixtures used by the witnesses and counterexamples below. -/
def tv1 : Version := { num := 10, unstable := false }

def tdep (o : Nat) (nm : String) (fs : List String) (gs : List String) (opt : Bool) : Dependency :=
  { oid := o, name := nm, features := fs, constraint := [tv1], groups := gs, optional := opt, allowsPre := false }

def tpkg (nm : String) (fs : List String) (rq : List Dependency) : Package :=
  { name := nm, features := fs, version := tv1, requires := rq, devRequires := [], category := "dev", optional := true }

def rootS1 : Package := { tpkg "r" [] [tdep 1 "x" [] ["default"] false] with version := { num := 0, unstable := false } }

def xS1 : Package := tpkg "x" [] []
-- S2 diamond

def rootS2 : Package := { tpkg "r" [] [tdep 1 "a" [] ["default"] false, tdep 2 "b" [] ["default"] false] with version := { num := 0, unstable := false } }

def aS2 : Package := tpkg "a" [] [tdep 3 "c" [] ["default"] false]

def bS2 : Package := tpkg "b" [] [tdep 4 "c" [] ["default"] false]

def cS2 : Package := tpkg "c" [] []
-- S3 cycle a <-> b

def rootS3 : Package := { tpkg "r" [] [tdep 1 "a" [] ["default"] false] with version := { num := 0, unstable := false } }

def aS3 : Package := tpkg "a" [] [tdep 2 "b" [] ["default"] false]

def bS3 : Package := tpkg "b" [] [tdep 3 "a" [] ["default"] false]
-- C5 cex: engine order [b, a], a requires b

def rootC5 : Package := { tpkg "r" [] [tdep 1 "a" [] ["default"] false, tdep 2 "b" [] ["default"] false] with version := { num := 0, unstable := false } }

def aC5 : Package := tpkg "a" [] [tdep 3 "b" [] ["default"] false]

def bC5 : Package := tpkg "b" [] []
-- C6 cex: root a@1 requires a, pool has a@1

def rootC6 : Package := tpkg "a" [] [tdep 1 "a" [] ["default"] false]

def poolC6 : Package := tpkg "a" [] []
-- S6 feature merge

def dep1 : Dependency := tdep 11 "d1" [] ["default"] false

def dep2 : Dependency := tdep 12 "d2" [] ["default"] false

def depBase : Dependency := tdep 13 "pkg" [] ["default"] false

def rootS6 : Package := { tpkg "r" [] [tdep 1 "pkg" ["extra"] ["default"] false] with version := { num := 0, unstable := false } }

def pkgS6 : Package := tpkg "pkg" [] [dep1]

def pkgX : Package := tpkg "pkg" ["extra"] [dep1, dep2, depBase]

def d1p : Package := tpkg "d1" [] []

def d2p : Package := tpkg "d2" [] []
-- S7 override merge

def ov1 : Override := { pins := [] }

def ov2 : Override := { pins := [("x", tv1)] }

def pA : Package := tpkg "a" [] []

def pB : Package := tpkg "b" [] [tdep 21 "z" [] ["default"] false]

def pB2 : Package := tpkg "b" [] [tdep 22 "w" [] ["default"] false]

def pC : Package := tpkg "c" [] []

def isolve : Override → List Package × List Int := fun o => if o.pins.isEmpty then ([pA, pB], [0, 1]) else ([pA, pC, pB2], [0, 1, 2])

/-- Maximum of a list of depths (Python `max` over a non-empty sequence). -/
def maxDepth : List Int → Option Int
  | [] => none
  | x :: xs => some (xs.foldl max x)

/-- Identity key of a package: name, feature set and version (the fields that
`Package.__eq__` inspects). -/
def keyTriple (p : Package) : String × List String × Version :=
  (p.name, p.features, p.version)

/-- Modelled from the spec's consequence clause: the list of packages in order
of first appearance (deduplicated by `Package.__eq__`). -/
def firstAppearance (ps : List Package) : List Package :=
  ps.foldl (fun acc p => if acc.any (fun q => pkgBeq p q) = true then acc else acc ++ [p]) []

/-- Key comparison on identity triples; `pkgBeq` factors through `keyTriple`. -/
def keyBeq (a b : String × List String × Version) : Bool :=
  a.1 == b.1 && setEq a.2.1 b.2.1 && a.2.2 == b.2.2

/-- Invariant of the override-merge loop: `acc` is the merged state after
processing the occurrence list `done`.  The stored packages are pairwise
distinct, their keys are the first-appearance keys of `done`, every stored
depth is the maximum over the matching occurrences, and every matching
occurrence's requirements are present in the stored requirements. -/
def MergeInv (done acc : List (Package × Int)) : Prop :=
  (∀ i j ei ej, acc.get? i = some ei → acc.get? j = some ej → i ≠ j →
      pkgBeq ei.1 ej.1 = false)
  ∧ (acc.map (fun e => keyTriple e.1)
      = (firstAppearance (done.map (fun e => e.1))).map keyTriple)
  ∧ (∀ k e, acc.get? k = some e →
      maxDepth ((done.filter (fun pd => pkgBeq pd.1 e.1)).map (fun x => x.2)) = some e.2)
  ∧ (∀ k e, acc.get? k = some e → ∀ pd ∈ done, pkgBeq pd.1 e.1 = true →
      ∀ d ∈ pd.1.requires, depMem d e.1.requires = true)

/-- Marked means recorded as `PartVisited` or `Visited` in the visited map. -/
def isMarked (l : List (NodeId × VState)) (id : NodeId) : Bool :=
  match visGet l id with
  | some VState.PartVisited => true
  | some VState.Visited => true
  | _ => false

/-- Evolution relation of the traversal state: the store and the `seen` list
only grow at the end, the topological list only grows at the front, and
visited marks are never dropped. -/
def StEvol (st st' : DfsState) : Prop :=
  (∃ t, st'.store = st.store ++ t)
  ∧ (∃ t, st'.seen = st.seen ++ t)
  ∧ (∃ t, st'.sorted = t ++ st.sorted)
  ∧ (∀ id, isMarked st.visited id = true → isMarked st'.visited id = true)

/-- Well-boundedness of a pending task: every node carried by the task points
at its context package and has the initial depth. -/
def TaskBound (ctx : List Package) : DfsTask → Prop
  | DfsTask.visit n => ctx.get? n.pkgIdx = some n.pkg ∧ n.depth = -1
  | DfsTask.children cs _ => ∀ c ∈ cs, ctx.get? c.pkgIdx = some c.pkg ∧ c.depth = -1

/-- Invariant of the traversal state: every stored node points at its context
package and still has depth `-1`, and every node of the topological list is a
store entry whose package is in the shared `seen` list. -/
def StGood (ctx : List Package) (st : DfsState) : Prop :=
  (∀ n ∈ st.store, ctx.get? n.pkgIdx = some n.pkg ∧ n.depth = -1)
  ∧ (∀ i ∈ st.sorted, ∃ n, st.store.get? i = some n ∧ seenHas st.seen n.pkg = true)

/-- Similarity of packages up to the aggregator-written `category` and
`optional` attributes. -/
def PkgSim (p q : Package) : Prop :=
  q.name = p.name ∧ q.features = p.features ∧ q.version = p.version
    ∧ q.requires = p.requires ∧ q.devRequires = p.devRequires

/-- Extension of a package: identical identity fields, requirements only
appended. -/
def PkgExt (p q : Package) : Prop :=
  q.name = p.name ∧ q.features = p.features ∧ q.version = p.version
    ∧ q.devRequires = p.devRequires ∧ ∃ t, q.requires = p.requires ++ t

/-- Positionwise extension of package lists. -/
def ListExt (l1 l2 : List Package) : Prop :=
  l1.length = l2.length ∧ ∀ k p, l1.get? k = some p → ∃ q, l2.get? k = some q ∧ PkgExt p q

/-- Positionwise preservation of name and feature set between package lists. -/
def ListNF (l1 l2 : List Package) : Prop :=
  l1.length = l2.length ∧ ∀ k p q, l1.get? k = some p → l2.get? k = some q →
    q.name = p.name ∧ q.features = p.features

/-- Membership of a dependency in the requirements of the package at a given
position. -/
def MemAt (j : Nat) (d : Dependency) (l : List Package) : Prop :=
  ∃ q', l.get? j = some q' ∧ depMem d q'.requires = true

/-- All dependencies occurring in the context packages (the universe of edges
the DFS can ever follow). -/
def allDeps : List Package → List Dependency
  | [] => []
  | p :: rest => p.allRequires ++ allDeps rest

/-- Node identities formable from the given dependency universe and a package
list. -/
def idsFor (ds : List Dependency) : List Package → List NodeId
  | [] => []
  | pkg :: rest => ds.map (fun d => (cnOf pkg, d.groups, d.optional)) ++ idsFor ds rest

/-- The finite universe of node identities of one traversal: the root node's
identity together with every identity formed from a context package and a
context dependency. -/
def allIds (root : Package) (ctx : List Package) : List NodeId :=
  nodeId (mkRoot root) :: idsFor (allDeps ctx) ctx

/-- Membership of a node identity in an identity list, up to identity
equality. -/
def idMem (ids : List NodeId) (id : NodeId) : Bool :=
  ids.any (fun i => idBeq i id)

/-- Number of identities of the universe not yet marked in the visited map. -/
def unmarked (ids : List NodeId) (vis : List (NodeId × VState)) : Nat :=
  (ids.filter (fun id => !isMarked vis id)).length

/-- Bound on the number of children any single `reachable` call can produce. -/
def dfsK (ctx : List Package) : Nat :=
  (allDeps ctx).length * ctx.length

/-- Fuel sufficient for a visit task when at most `u` universe identities are
unmarked, with per-node child bound `K`. -/
def vBound (K : Nat) : Nat → Nat
  | 0 => 1
  | u + 1 => 2 + K * (1 + vBound K u)

/-- Fuel sufficient for a pending task. -/
def taskCost (K u : Nat) : DfsTask → Nat
  | DfsTask.visit _ => vBound K u
  | DfsTask.children cs _ => 1 + cs.length * (1 + vBound K u)

/-- Identity-boundedness of a pending task: every carried node's identity lies
in the universe and the node points at its context package. -/
def TaskIds (root : Package) (ctx : List Package) : DfsTask → Prop
  | DfsTask.visit n =>
    idMem (allIds root ctx) (nodeId n) = true ∧ ctx.get? n.pkgIdx = some n.pkg
  | DfsTask.children cs _ =>
    ∀ c ∈ cs, idMem (allIds root ctx) (nodeId c) = true ∧ ctx.get? c.pkgIdx = some c.pkg

/-! Basic properties of the boolean equalities. -/

theorem setEq_iff {a b : List String} : setEq a b = true ↔ ((∀ x ∈ a, x ∈ b) ∧ ∀ x ∈ b, x ∈ a) := by
  simp [setEq, List.all_eq_true, List.elem_iff]

theorem setEq_refl (a : List String) : setEq a a = true := by
  simp [setEq_iff]

theorem setEq_symm {a b : List String} (h : setEq a b = true) : setEq b a = true := by
  rw [setEq_iff] at *; exact ⟨h.2, h.1⟩

theorem setEq_trans {a b c : List String} (h1 : setEq a b = true) (h2 : setEq b c = true) :
    setEq a c = true := by
  rw [setEq_iff] at *
  exact ⟨fun x hx => h2.1 x (h1.1 x hx), fun x hx => h1.2 x (h2.2 x hx)⟩

theorem cnBeq_refl (a : CName) : cnBeq a a = true := by
  simp [cnBeq, setEq_refl]

theorem cnBeq_symm {a b : CName} (h : cnBeq a b = true) : cnBeq b a = true := by
  simp only [cnBeq, Bool.and_eq_true, beq_iff_eq] at *
  exact ⟨h.1.symm, setEq_symm h.2⟩

theorem cnBeq_trans {a b c : CName} (h1 : cnBeq a b = true) (h2 : cnBeq b c = true) :
    cnBeq a c = true := by
  simp only [cnBeq, Bool.and_eq_true, beq_iff_eq] at *
  exact ⟨h1.1.trans h2.1, setEq_trans h1.2 h2.2⟩

theorem idBeq_refl (a : NodeId) : idBeq a a = true := by
  simp [idBeq, cnBeq_refl, setEq_refl]

theorem idBeq_symm {a b : NodeId} (h : idBeq a b = true) : idBeq b a = true := by
  simp only [idBeq, Bool.and_eq_true, beq_iff_eq] at *
  obtain ⟨⟨h1, h2⟩, h3⟩ := h
  exact ⟨⟨cnBeq_symm h1, setEq_symm h2⟩, h3.symm⟩

theorem idBeq_trans {a b c : NodeId} (h1 : idBeq a b = true) (h2 : idBeq b c = true) :
    idBeq a c = true := by
  simp only [idBeq, Bool.and_eq_true, beq_iff_eq] at *
  obtain ⟨⟨ha, hb⟩, hc⟩ := h1
  obtain ⟨⟨hd, he⟩, hf⟩ := h2
  exact ⟨⟨cnBeq_trans ha hd, setEq_trans hb he⟩, hc.trans hf⟩

theorem sameSpec_refl (p : Package) : sameSpec p p = true := by
  simp [sameSpec, setEq_refl]

theorem sameSpec_symm {p q : Package} (h : sameSpec p q = true) : sameSpec q p = true := by
  simp only [sameSpec, Bool.and_eq_true, beq_iff_eq] at *
  exact ⟨h.1.symm, setEq_symm h.2⟩

theorem sameSpec_trans {p q r : Package} (h1 : sameSpec p q = true)
    (h2 : sameSpec q r = true) : sameSpec p r = true := by
  simp only [sameSpec, Bool.and_eq_true, beq_iff_eq] at *
  exact ⟨h1.1.trans h2.1, setEq_trans h1.2 h2.2⟩

theorem pkgBeq_refl (p : Package) : pkgBeq p p = true := by
  simp [pkgBeq, sameSpec_refl]

theorem pkgBeq_symm {p q : Package} (h : pkgBeq p q = true) : pkgBeq q p = true := by
  simp only [pkgBeq, Bool.and_eq_true, beq_iff_eq] at *
  exact ⟨sameSpec_symm h.1, h.2.symm⟩

theorem pkgBeq_trans {p q r : Package} (h1 : pkgBeq p q = true) (h2 : pkgBeq q r = true) :
    pkgBeq p r = true := by
  simp only [pkgBeq, Bool.and_eq_true, beq_iff_eq] at *
  exact ⟨sameSpec_trans h1.1 h2.1, h1.2.trans h2.2⟩

/-! Generic list helpers. -/

theorem foldl_preserves {α β : Type} (P : β → Prop) (f : β → α → β) (l : List α)
    (b : β) (h0 : P b) (hs : ∀ acc x, x ∈ l → P acc → P (f acc x)) : P (l.foldl f b) := by
  induction l generalizing b with
  | nil => exact h0
  | cons x xs ih =>
    exact ih (f b x) (hs b x (List.mem_cons_self x xs) h0)
      (fun acc y hy => hs acc y (List.mem_cons_of_mem x hy))

theorem foldr_max_le_of_mem {x : Int} {l : List Int} (init : Int) (h : x ∈ l) :
    x ≤ l.foldr max init := by
  induction l with
  | nil => cases h
  | cons y ys ih =>
    rcases List.mem_cons.mp h with rfl | h'
    · exact le_max_left _ _
    · exact le_trans (ih h') (le_max_right _ _)

theorem foldr_max_init_le (init : Int) (l : List Int) : init ≤ l.foldr max init := by
  induction l with
  | nil => exact le_refl _
  | cons y ys ih => exact le_trans ih (le_max_right _ _)

theorem foldr_max_cases (init : Int) (l : List Int) :
    l.foldr max init = init ∨ l.foldr max init ∈ l := by
  induction l with
  | nil => exact Or.inl rfl
  | cons y ys ih =>
    simp only [List.foldr_cons]
    rcases le_total y (ys.foldr max init) with h | h
    · rw [max_eq_right h]
      rcases ih with h' | h'
      · exact Or.inl h'
      · exact Or.inr (List.mem_cons_of_mem _ h')
    · rw [max_eq_left h]
      exact Or.inr (List.mem_cons_self _ _)

/-! Claim C4: the depth formula of `PackageNode.visit`. -/

theorem bne_ite_eq_ne_ite (a b : String) (x y : Int) :
    (if a != b then x else y) = if a ≠ b then x else y := by
  by_cases h : a = b <;> simp [h]

/-- C4: `PackageNode.visit(parents)` sets the node's depth to `1 +` the maximum
over the parents of (`parent.depth` for a different base name, `parent.depth -
1` for the same base name) with the floor sentinel `-2`: every contribution is
a lower bound of `depth - 1`, the depth is `-1` (the sentinel value) or `1 +`
some parent's contribution, a node with no parents computes `-1`, and a node
whose only parent is the root (depth `-1`, different base name) computes `0`. -/
theorem C4_visit_depth (n : PNode) (parents : List PNode) :
    (∀ p ∈ parents,
        (if p.pkg.name ≠ n.pkg.name then p.depth else p.depth - 1) + 1 ≤
          (PackageNode_visit n parents).depth)
    ∧ ((PackageNode_visit n parents).depth = -1 ∨
        ∃ p ∈ parents, (PackageNode_visit n parents).depth =
          1 + (if p.pkg.name ≠ n.pkg.name then p.depth else p.depth - 1))
    ∧ (parents = [] → (PackageNode_visit n parents).depth = -1)
    ∧ (∀ r : PNode, r.pkg.name ≠ n.pkg.name → r.depth = -1 →
        (PackageNode_visit n [r]).depth = 0) := by
  have hmap : parents.map (fun p => if p.pkg.name != n.pkg.name then p.depth else p.depth - 1)
      = parents.map (fun p => if p.pkg.name ≠ n.pkg.name then p.depth else p.depth - 1) :=
    List.map_congr_left (fun p _ => bne_ite_eq_ne_ite _ _ _ _)
  refine ⟨?_, ?_, ?_, ?_⟩
  · intro p hp
    have hm : (if p.pkg.name ≠ n.pkg.name then p.depth else p.depth - 1) ∈
        parents.map (fun p => if p.pkg.name ≠ n.pkg.name then p.depth else p.depth - 1) :=
      List.mem_map_of_mem _ hp
    have := foldr_max_le_of_mem (-2) hm
    simp only [PackageNode_visit, hmap]
    omega
  · simp only [PackageNode_visit, hmap]
    rcases foldr_max_cases (-2)
        (parents.map (fun p => if p.pkg.name ≠ n.pkg.name then p.depth else p.depth - 1)) with
      h | h
    · left; rw [h]; decide
    · right
      rcases List.mem_map.mp h with ⟨p, hp, he⟩
      exact ⟨p, hp, by rw [← he]⟩
  · intro h; subst h; simp [PackageNode_visit]
  · intro r hne hd
    simp [PackageNode_visit, hd, bne_iff_ne, hne]

/-- Witness for C4 at a concrete node whose only parent is a root of depth
`-1` and different base name. -/
theorem C4_visit_depth_witness :
    (PackageNode_visit (mkRoot xS1) [mkRoot rootS1]).depth = 0 :=
  (C4_visit_depth (mkRoot xS1) [mkRoot rootS1]).2.2.2 (mkRoot rootS1)
    (by decide) (by decide)

/-! Claim C3: the contract of `aggregate_package_nodes`. -/

/-- C3: on a non-empty node group sharing one name,
`aggregate_package_nodes(nodes, children)` returns the head node's package
(with only `category` and `optional` rewritten) paired with the maximal depth
over `nodes`; the category is `"main"` exactly when some node of
`children + nodes` carries the `"default"` group and `"dev"` otherwise; the
optionality is the conjunction over `children + nodes`; and depth, category
and optionality are written back onto every node of the group. -/
theorem C3_aggregate (nodes children : List PNode) (n0 : PNode) (rest : List PNode)
    (h : nodes = n0 :: rest) :
    ∃ nodes' package' depth,
      aggregate_package_nodes nodes children = some (nodes', package', depth)
      ∧ package'.name = n0.pkg.name ∧ package'.features = n0.pkg.features
      ∧ package'.version = n0.pkg.version ∧ package'.requires = n0.pkg.requires
      ∧ (∀ n ∈ nodes, n.depth ≤ depth) ∧ (∃ n ∈ nodes, n.depth = depth)
      ∧ (package'.category = "main" ↔ ∃ n ∈ children ++ nodes, "default" ∈ n.groups)
      ∧ (package'.category = "main" ∨ package'.category = "dev")
      ∧ (package'.optional = true ↔ ∀ n ∈ children ++ nodes, n.optional = true)
      ∧ nodes'.length = nodes.length
      ∧ (∀ n' ∈ nodes', n'.depth = depth ∧ n'.category = package'.category
          ∧ n'.optional = package'.optional) := by
  subst h
  simp only [aggregate_package_nodes]
  refine ⟨_, _, _, rfl, rfl, rfl, rfl, rfl, ?_, ?_, ?_, ?_, ?_, by simp, ?_⟩
  · intro n hn
    exact foldr_max_le_of_mem _ (List.mem_map_of_mem _ hn)
  · rcases foldr_max_cases n0.depth ((n0 :: rest).map (fun n => n.depth)) with h | h
    · exact ⟨n0, List.mem_cons_self _ _, h.symm⟩
    · rcases List.mem_map.mp h with ⟨n, hn, he⟩
      exact ⟨n, hn, he⟩
  · constructor
    · intro hc
      by_cases hany : (children ++ (n0 :: rest)).any (fun n => n.groups.contains "default") = true
      · rcases List.any_eq_true.mp hany with ⟨n, hn, hd⟩
        exact ⟨n, hn, List.elem_iff.mp hd⟩
      · simp only [hany] at hc
        simp at hc
    · intro ⟨n, hn, hd⟩
      have : (children ++ (n0 :: rest)).any (fun n => n.groups.contains "default") = true :=
        List.any_eq_true.mpr ⟨n, hn, List.elem_iff.mpr hd⟩
      simp only [this]
      simp
  · cases (children ++ (n0 :: rest)).any (fun n => n.groups.contains "default") with
    | true => left; rfl
    | false => right; rfl
  · constructor
    · intro ho n hn
      have := List.all_eq_true.mp ho n hn
      simpa using this
    · intro ho
      exact List.all_eq_true.mpr (fun n hn => ho n hn)
  · intro n' hn'
    rcases List.mem_map.mp hn' with ⟨n, _, he⟩
    subst he
    exact ⟨rfl, rfl, rfl⟩

/-- Witness for C3 at a concrete two-node group with one child. -/
theorem C3_aggregate_witness :
    ∃ nodes' package' depth,
      aggregate_package_nodes [mkRoot rootS1, mkRoot xS1] [mkRoot bS2]
          = some (nodes', package', depth)
      ∧ package'.name = rootS1.name ∧ package'.features = rootS1.features
      ∧ package'.version = rootS1.version ∧ package'.requires = rootS1.requires
      ∧ (∀ n ∈ [mkRoot rootS1, mkRoot xS1], n.depth ≤ depth)
      ∧ (∃ n ∈ [mkRoot rootS1, mkRoot xS1], n.depth = depth)
      ∧ (package'.category = "main" ↔
          ∃ n ∈ [mkRoot bS2] ++ [mkRoot rootS1, mkRoot xS1], "default" ∈ n.groups)
      ∧ (package'.category = "main" ∨ package'.category = "dev")
      ∧ (package'.optional = true ↔
          ∀ n ∈ [mkRoot bS2] ++ [mkRoot rootS1, mkRoot xS1], n.optional = true)
      ∧ nodes'.length = ([mkRoot rootS1, mkRoot xS1] : List PNode).length
      ∧ (∀ n' ∈ nodes', n'.depth = depth ∧ n'.category = package'.category
          ∧ n'.optional = package'.optional) :=
  C3_aggregate [mkRoot rootS1, mkRoot xS1] [mkRoot bS2] (mkRoot rootS1) [mkRoot xS1] rfl

/-! Claim C7: the exception structure of `_solve`. -/

/-- C7: when the engine reports `SolveFailure`, `_solve` raises a
`SolverProblemError` wrapping it, without consulting the override retry path
(the result does not depend on the inner solve); when the engine reports
`OverrideNeeded(overrides)`, `_solve` recovers by delegating to
`solve_in_compatibility_mode` on the raised overrides, producing a non-error
result; and a `SolverProblemError` is the only error the core ever returns —
it occurs exactly for a failed engine outcome. -/
theorem C7_error_handling (root : Package) (fuel : Nat)
    (innerSolve innerSolve2 : Override → List Package × List Int)
    (e : SolveFailure) (ovs : List Override) (outcome : EngineOutcome) :
    (solveCore root (EngineOutcome.failed e) innerSolve fuel
        = some (Except.error { failure := e }))
    ∧ (solveCore root (EngineOutcome.failed e) innerSolve fuel
        = solveCore root (EngineOutcome.failed e) innerSolve2 fuel)
    ∧ (solveCore root (EngineOutcome.overrideNeeded ovs) innerSolve fuel
        = some (Except.ok (solve_in_compatibility_mode ovs innerSolve)))
    ∧ (∀ res err, solveCore root outcome innerSolve fuel = some res →
        res = Except.error err → ∃ e', outcome = EngineOutcome.failed e'
          ∧ err = { failure := e' }) := by
  refine ⟨rfl, rfl, rfl, ?_⟩
  intro res err hres herr
  cases outcome with
  | ok packages =>
    simp only [solveCore, Option.map_eq_some'] at hres
    rcases hres with ⟨r, _, hre⟩
    rw [← hre] at herr
    simp at herr
  | overrideNeeded ovs' =>
    simp only [solveCore, Option.some_inj] at hres
    rw [← hres] at herr
    simp at herr
  | failed e' =>
    simp only [solveCore, Option.some_inj] at hres
    rw [← hres] at herr
    exact ⟨e', rfl, ((Except.error.injEq _ _).mp herr).symm⟩

/-- Witness for C7 at a concrete failure, override tuple and outcome. -/
theorem C7_error_handling_witness :
    (solveCore rootS1 (EngineOutcome.failed { msg := "conflict" }) isolve 5
        = some (Except.error { failure := { msg := "conflict" } }))
    ∧ (solveCore rootS1 (EngineOutcome.overrideNeeded [ov1, ov2]) isolve 5
        = some (Except.ok (solve_in_compatibility_mode [ov1, ov2] isolve))) :=
  ⟨(C7_error_handling rootS1 5 isolve isolve { msg := "conflict" } [ov1, ov2]
      (EngineOutcome.failed { msg := "conflict" })).1,
   (C7_error_handling rootS1 5 isolve isolve { msg := "conflict" } [ov1, ov2]
      (EngineOutcome.overrideNeeded [ov1, ov2])).2.2.1⟩

/-! Support lemmas for the override-merge invariant (claim C2). -/

theorem depBeq_refl (d : Dependency) : depBeq d d = true := by
  simp [depBeq, setEq_refl]

theorem depMem_append_left {d : Dependency} {l : List Dependency} (t : List Dependency)
    (h : depMem d l = true) : depMem d (l ++ t) = true := by
  simp only [depMem, List.any_eq_true] at *
  rcases h with ⟨e, he, hb⟩
  exact ⟨e, List.mem_append_left _ he, hb⟩

theorem depMem_self_append (d : Dependency) (l : List Dependency) :
    depMem d (l ++ [d]) = true := by
  simp only [depMem, List.any_eq_true]
  exact ⟨d, List.mem_append_right _ (List.mem_singleton.mpr rfl), depBeq_refl d⟩

/-- Key fields preserved and requirements only appended by `addMissingDeps`. -/
theorem addMissingDeps_fields (q p : Package) :
    (addMissingDeps q p).name = q.name ∧ (addMissingDeps q p).features = q.features
    ∧ (addMissingDeps q p).version = q.version
    ∧ (addMissingDeps q p).devRequires = q.devRequires
    ∧ (addMissingDeps q p).category = q.category
    ∧ (addMissingDeps q p).optional = q.optional
    ∧ ∃ t, (addMissingDeps q p).requires = q.requires ++ t := by
  unfold addMissingDeps
  refine foldl_preserves (fun r => r.name = q.name ∧ r.features = q.features
      ∧ r.version = q.version ∧ r.devRequires = q.devRequires ∧ r.category = q.category
      ∧ r.optional = q.optional ∧ ∃ t, r.requires = q.requires ++ t)
    _ p.requires q ⟨rfl, rfl, rfl, rfl, rfl, rfl, [], by simp⟩ ?_
  rintro acc d _ ⟨h1, h2, h3, h4, h5, h6, t, h7⟩
  by_cases hm : depMem d acc.requires = true
  · simp only [hm, if_true]
    exact ⟨h1, h2, h3, h4, h5, h6, t, h7⟩
  · simp only [hm, if_false]
    exact ⟨h1, h2, h3, h4, h5, h6, t ++ [d], by simp [h7]⟩

theorem addMissingDeps_mem_old {q : Package} (p : Package) {d : Dependency}
    (h : depMem d q.requires = true) : depMem d (addMissingDeps q p).requires = true := by
  rcases (addMissingDeps_fields q p).2.2.2.2.2.2 with ⟨t, ht⟩
  rw [ht]; exact depMem_append_left t h

theorem addMissingDeps_mem_new (q p : Package) :
    ∀ d ∈ p.requires, depMem d (addMissingDeps q p).requires = true := by
  unfold addMissingDeps
  intro d hd
  have main : ∀ (rs : List Dependency) (q' : Package), d ∈ rs →
      depMem d ((rs.foldl (fun q'' d' =>
        if depMem d' q''.requires = true then q''
        else { q'' with requires := q''.requires ++ [d'] }) q')).requires = true := by
    intro rs
    induction rs with
    | nil => intro q' h; cases h
    | cons x xs ih =>
      intro q' h
      rcases List.mem_cons.mp h with rfl | h'
      · have hstep : depMem d ((if depMem d q'.requires = true then q'
            else { q' with requires := q'.requires ++ [d] }).requires) = true := by
          by_cases hm : depMem d q'.requires = true
          · simp [hm]
          · simp only [hm, if_false]
            exact depMem_self_append d q'.requires
        have mono : ∀ (rs' : List Dependency) (q'' : Package),
            depMem d q''.requires = true →
            depMem d ((rs'.foldl (fun q3 d' =>
              if depMem d' q3.requires = true then q3
              else { q3 with requires := q3.requires ++ [d'] }) q'')).requires = true := by
          intro rs' q'' h0
          refine foldl_preserves (fun q3 => depMem d q3.requires = true) _ rs' q'' h0 ?_
          intro acc y _ hacc
          by_cases hm : depMem y acc.requires = true
          · simpa [hm] using hacc
          · simp only [hm, if_false]
            exact depMem_append_left [y] hacc
        simpa using mono xs _ hstep
      · exact ih _ h'
  simpa using main p.requires q hd

theorem idxOf?_none {p : Package} {acc : List (Package × Int)}
    (h : idxOf? p acc = none) : ∀ e ∈ acc, pkgBeq p e.1 = false := by
  induction acc with
  | nil => intro e he; cases he
  | cons x xs ih =>
    intro e he
    simp only [idxOf?] at h
    by_cases hb : pkgBeq p x.1 = true
    · simp [hb] at h
    · rcases List.mem_cons.mp he with rfl | he'
      · exact Bool.eq_false_iff.mpr hb
      · simp only [Bool.eq_false_iff.mpr hb, if_neg, Option.map_eq_none'] at h
        · exact ih (by simpa using h) e he'

theorem idxOf?_some {p : Package} {acc : List (Package × Int)} {i : Nat}
    (h : idxOf? p acc = some i) :
    ∃ e, acc.get? i = some e ∧ pkgBeq p e.1 = true := by
  induction acc generalizing i with
  | nil => simp [idxOf?] at h
  | cons x xs ih =>
    have hunf : idxOf? p (x :: xs)
        = if pkgBeq p x.1 = true then some 0 else (idxOf? p xs).map (fun i => i + 1) := rfl
    rw [hunf] at h
    by_cases hb : pkgBeq p x.1 = true
    · rw [if_pos hb] at h
      injection h with h
      subst h
      exact ⟨x, rfl, hb⟩
    · rw [if_neg hb] at h
      rcases Option.map_eq_some'.mp h with ⟨j, hj, rfl⟩
      rcases ih hj with ⟨e, he, hbe⟩
      exact ⟨e, by simpa using he, hbe⟩

theorem maxDepth_append_singleton (l : List Int) (d : Int) :
    maxDepth (l ++ [d]) = some (match maxDepth l with
      | none => d
      | some m => max m d) := by
  cases l with
  | nil => simp [maxDepth]
  | cons x xs => simp [maxDepth, List.foldl_append]

theorem pkgBeq_congr_left {p p' : Package} (q : Package) (hn : p.name = p'.name)
    (hf : p.features = p'.features) (hv : p.version = p'.version) :
    pkgBeq p q = pkgBeq p' q := by
  simp [pkgBeq, sameSpec, hn, hf, hv]

theorem pkgBeq_congr_right (q : Package) {p p' : Package} (hn : p.name = p'.name)
    (hf : p.features = p'.features) (hv : p.version = p'.version) :
    pkgBeq q p = pkgBeq q p' := by
  simp [pkgBeq, sameSpec, hn, hf, hv]

theorem firstAppearance_any_foldl (x : Package) (l : List Package) (acc : List Package) :
    ((l.foldl (fun acc p => if acc.any (fun q => pkgBeq p q) = true then acc
        else acc ++ [p]) acc).any (fun q => pkgBeq x q))
      = (acc.any (fun q => pkgBeq x q) || l.any (fun q => pkgBeq x q)) := by
  induction l generalizing acc with
  | nil => simp
  | cons y ys ih =>
    simp only [List.foldl_cons, List.any_cons]
    by_cases hy : acc.any (fun q => pkgBeq y q) = true
    · rw [if_pos hy, ih]
      by_cases hxy : pkgBeq x y = true
      · rcases List.any_eq_true.mp hy with ⟨q, hq, hbq⟩
        have : acc.any (fun q => pkgBeq x q) = true :=
          List.any_eq_true.mpr ⟨q, hq, pkgBeq_trans hxy hbq⟩
        simp [this]
      · simp [Bool.eq_false_iff.mpr hxy]
    · rw [if_neg hy, ih]
      simp [List.any_append, Bool.or_assoc]

theorem firstAppearance_any (x : Package) (l : List Package) :
    (firstAppearance l).any (fun q => pkgBeq x q) = l.any (fun q => pkgBeq x q) := by
  have h := firstAppearance_any_foldl x l []
  simpa only [List.any_nil, Bool.false_or] using h

theorem set_get?_self {α : Type} {l : List α} {i : Nat} {x : α}
    (h : l.get? i = some x) : l.set i x = l := by
  induction l generalizing i with
  | nil => simp at h
  | cons y ys ih =>
    cases i with
    | zero => simp at h; simp [h]
    | succ j => simp only [List.get?_cons_succ] at h; simp [List.set_cons_succ, ih h]

theorem get?_concat_cases {α : Type} {l : List α} {x e : α} {i : Nat}
    (h : (l ++ [x]).get? i = some e) :
    (i < l.length ∧ l.get? i = some e) ∨ (i = l.length ∧ e = x) := by
  rcases lt_trichotomy i l.length with hlt | heq | hgt
  · left
    exact ⟨hlt, by rwa [List.get?_append hlt] at h⟩
  · right
    subst heq
    rw [List.get?_concat_length] at h
    exact ⟨rfl, (Option.some_inj.mp h).symm⟩
  · exfalso
    have hnone : (l ++ [x]).get? i = none := List.get?_eq_none.mpr (by simp; omega)
    rw [hnone] at h
    cases h

theorem map_set_congr {α β : Type} (f : α → β) (l : List α) (i : Nat) (v w : α)
    (h : l.get? i = some w) (hfw : f v = f w) : (l.set i v).map f = l.map f := by
  induction l generalizing i with
  | nil => simp
  | cons y ys ih =>
    cases i with
    | zero =>
      simp only [List.get?_cons_zero, Option.some_inj] at h
      subst h
      simp [hfw]
    | succ j =>
      simp only [List.get?_cons_succ] at h
      have h2 := ih j h
      show f y :: (ys.set j v).map f = f y :: ys.map f
      rw [h2]

theorem pkgBeq_eq_keyBeq (p q : Package) :
    pkgBeq p q = keyBeq (keyTriple p) (keyTriple q) := rfl

theorem pkgBeq_symm_false {p q : Package} (h : pkgBeq p q = false) : pkgBeq q p = false := by
  by_contra hb
  have hb' : pkgBeq q p = true := Bool.not_eq_false _ |>.mp hb
  rw [pkgBeq_symm hb'] at h
  cases h

theorem keyTriple_congr {p : Package} {q : Package} (h : keyTriple p = keyTriple q) (x : Package) :
    pkgBeq x p = pkgBeq x q := by
  have h1 : p.name = q.name := congrArg (fun t => t.1) h
  have h2 : p.features = q.features := congrArg (fun t => t.2.1) h
  have h3 : p.version = q.version := congrArg (fun t => t.2.2) h
  exact pkgBeq_congr_right x h1 h2 h3

theorem any_pkgBeq_of_keys_eq {l1 : List (Package × Int)} {l2 : List Package}
    (h : l1.map (fun e => keyTriple e.1) = l2.map keyTriple) (x : Package) :
    l1.any (fun e => pkgBeq x e.1) = l2.any (fun q => pkgBeq x q) := by
  induction l1 generalizing l2 with
  | nil =>
    cases l2 with
    | nil => rfl
    | cons b bs => simp at h
  | cons a as ih =>
    cases l2 with
    | nil => simp at h
    | cons b bs =>
      simp only [List.map_cons, List.cons.injEq] at h
      simp only [List.any_cons]
      rw [keyTriple_congr h.1 x, ih h.2]

theorem mergeInv_any_bridge {done acc : List (Package × Int)}
    (hkeys : acc.map (fun e => keyTriple e.1)
      = (firstAppearance (done.map (fun e => e.1))).map keyTriple) (x : Package) :
    acc.any (fun e => pkgBeq x e.1) = (done.map (fun e => e.1)).any (fun q => pkgBeq x q) := by
  rw [any_pkgBeq_of_keys_eq hkeys, firstAppearance_any]

theorem mergeStep_inv_none {done acc : List (Package × Int)} {pd : Package × Int}
    (hinv : MergeInv done acc) (hnone : idxOf? pd.1 acc = none) :
    MergeInv (done ++ [pd]) (acc ++ [pd]) := by
  obtain ⟨hdist, hkeys, hmax, hdeps⟩ := hinv
  have hnomatch := idxOf?_none hnone
  have haccany : acc.any (fun e => pkgBeq pd.1 e.1) = false := by
    rw [List.any_eq_false]
    intro e he
    simp [hnomatch e he]
  have hdoneany : (done.map (fun e => e.1)).any (fun q => pkgBeq pd.1 q) = false := by
    rw [← mergeInv_any_bridge hkeys]
    exact haccany
  have hfaany : (firstAppearance (done.map (fun e => e.1))).any (fun q => pkgBeq pd.1 q)
      = false := by
    rw [firstAppearance_any]
    exact hdoneany
  have hdonematch : ∀ pd' ∈ done, pkgBeq pd'.1 pd.1 = false := by
    intro pd' hpd'
    by_contra hb
    have hb' : pkgBeq pd'.1 pd.1 = true := Bool.not_eq_false _ |>.mp hb
    have : (done.map (fun e => e.1)).any (fun q => pkgBeq pd.1 q) = true :=
      List.any_eq_true.mpr ⟨pd'.1, List.mem_map_of_mem _ hpd', pkgBeq_symm hb'⟩
    rw [hdoneany] at this
    cases this
  have hfilterdone : done.filter (fun q => pkgBeq q.1 pd.1) = [] := by
    rw [List.filter_eq_nil]
    intro a ha
    simp [hdonematch a ha]
  refine ⟨?_, ?_, ?_, ?_⟩
  · intro i j ei ej hi hj hne
    rcases get?_concat_cases hi with ⟨hilt, hi'⟩ | ⟨hieq, hie⟩ <;>
      rcases get?_concat_cases hj with ⟨hjlt, hj'⟩ | ⟨hjeq, hje⟩
    · exact hdist i j ei ej hi' hj' hne
    · subst hje
      exact pkgBeq_symm_false (hnomatch ei (List.get?_mem hi'))
    · subst hie
      exact hnomatch ej (List.get?_mem hj')
    · omega
  · have hstep : firstAppearance ((done.map (fun e => e.1)) ++ [pd.1])
        = firstAppearance (done.map (fun e => e.1)) ++ [pd.1] := by
      have hn : ¬ ((List.foldl (fun acc p =>
          if (acc.any fun q => pkgBeq p q) = true then acc else acc ++ [p]) []
            (done.map (fun e => e.1))).any (fun q => pkgBeq pd.1 q) = true) := by
        have h0 := hfaany
        unfold firstAppearance at h0
        rw [h0]
        exact Bool.false_ne_true
      unfold firstAppearance
      rw [List.foldl_append]
      simp only [List.foldl_cons, List.foldl_nil]
      rw [if_neg hn]
    simp only [List.map_append, List.map_cons, List.map_nil]
    rw [hstep]
    simp only [List.map_append, List.map_cons, List.map_nil, hkeys]
  · intro k e hk
    rcases get?_concat_cases hk with ⟨hklt, hk'⟩ | ⟨hkeq, hke⟩
    · rw [List.filter_append]
      have hpdfilter : List.filter (fun q => pkgBeq q.1 e.1) [pd] = [] := by
        have hne := hnomatch e (List.get?_mem hk')
        simp [List.filter, hne]
      rw [hpdfilter, List.append_nil]
      exact hmax k e hk'
    · subst hke
      rw [List.filter_append, hfilterdone]
      simp [List.filter, pkgBeq_refl, maxDepth]
  · intro k e hk pd' hpd' hb d hd
    rcases get?_concat_cases hk with ⟨hklt, hk'⟩ | ⟨hkeq, hke⟩
    · rcases List.mem_append.mp hpd' with hpd'' | hpd''
      · exact hdeps k e hk' pd' hpd'' hb d hd
      · exfalso
        have hpde : pd' = pd := List.mem_singleton.mp hpd''
        subst hpde
        have hfe := hnomatch e (List.get?_mem hk')
        rw [hb] at hfe
        cases hfe
    · rcases List.mem_append.mp hpd' with hpd'' | hpd''
      · exfalso
        have hfd := hdonematch pd' hpd''
        rw [hke] at hb
        rw [hb] at hfd
        cases hfd
      · have hpde : pd' = pd := List.mem_singleton.mp hpd''
        rw [hke]
        rw [hpde] at hd
        exact List.any_eq_true.mpr ⟨d, hd, depBeq_refl d⟩

theorem get?_some_lt {α : Type} {l : List α} {i : Nat} {x : α}
    (h : l.get? i = some x) : i < l.length := by
  by_contra hge
  rw [List.get?_eq_none.mpr (by omega)] at h
  cases h

theorem firstAppearance_append_singleton (l : List Package) (x : Package) :
    firstAppearance (l ++ [x])
      = if (firstAppearance l).any (fun q => pkgBeq x q) = true
          then firstAppearance l else firstAppearance l ++ [x] := by
  unfold firstAppearance
  rw [List.foldl_append]
  simp only [List.foldl_cons, List.foldl_nil]

theorem mergeStep_inv_some {done acc : List (Package × Int)} {pd : Package × Int} {i : Nat}
    (hinv : MergeInv done acc) (hsome : idxOf? pd.1 acc = some i) :
    MergeInv (done ++ [pd]) (mergeStep acc pd) := by
  obtain ⟨hdist, hkeys, hmax, hdeps⟩ := hinv
  rcases idxOf?_some hsome with ⟨ei, hget, hm⟩
  have hilt : i < acc.length := get?_some_lt hget
  have hmerge : mergeStep acc pd = acc.set i (addMissingDeps ei.1 pd.1, max ei.2 pd.2) := by
    unfold mergeStep
    rw [hsome]
    simp only [hget]
  obtain ⟨hfn, hff, hfv, _, _, _, _⟩ := addMissingDeps_fields ei.1 pd.1
  have hkeyeq : keyTriple (addMissingDeps ei.1 pd.1) = keyTriple ei.1 := by
    simp [keyTriple, hfn, hff, hfv]
  have hbeqL : ∀ x : Package, pkgBeq (addMissingDeps ei.1 pd.1) x = pkgBeq ei.1 x :=
    fun x => pkgBeq_congr_left x hfn hff hfv
  have hbeqR : ∀ x : Package, pkgBeq x (addMissingDeps ei.1 pd.1) = pkgBeq x ei.1 :=
    fun x => keyTriple_congr hkeyeq x
  have haccany : acc.any (fun e => pkgBeq pd.1 e.1) = true :=
    List.any_eq_true.mpr ⟨ei, List.get?_mem hget, hm⟩
  have hfaany : (firstAppearance (done.map (fun e => e.1))).any (fun q => pkgBeq pd.1 q)
      = true := by
    rw [firstAppearance_any, ← mergeInv_any_bridge hkeys]
    exact haccany
  have hgetset : ∀ (k : Nat) (e : Package × Int),
      (acc.set i (addMissingDeps ei.1 pd.1, max ei.2 pd.2)).get? k = some e →
      (k ≠ i ∧ acc.get? k = some e)
        ∨ (k = i ∧ e = (addMissingDeps ei.1 pd.1, max ei.2 pd.2)) := by
    intro k e hk
    by_cases hki : k = i
    · subst hki
      rw [List.get?_set_eq_of_lt _ hilt] at hk
      exact Or.inr ⟨rfl, (Option.some_inj.mp hk).symm⟩
    · left
      refine ⟨hki, ?_⟩
      rwa [List.get?_set_ne _ _ (fun he => hki he.symm)] at hk
  have hpdnomatch : ∀ (k : Nat) (ej : Package × Int), k ≠ i → acc.get? k = some ej →
      pkgBeq pd.1 ej.1 = false := by
    intro k ej hki hkj
    by_contra hb
    have hb' : pkgBeq pd.1 ej.1 = true := Bool.not_eq_false _ |>.mp hb
    have : pkgBeq ei.1 ej.1 = true := pkgBeq_trans (pkgBeq_symm hm) hb'
    have hf := hdist i k ei ej hget hkj (fun he => hki he.symm)
    rw [this] at hf
    cases hf
  rw [hmerge]
  refine ⟨?_, ?_, ?_, ?_⟩
  · intro k j ek ej hk hj hne
    rcases hgetset k ek hk with ⟨hki, hk'⟩ | ⟨hki, hke⟩ <;>
      rcases hgetset j ej hj with ⟨hji, hj'⟩ | ⟨hji, hje⟩
    · exact hdist k j ek ej hk' hj' hne
    · subst hje
      have h0 := hdist k i ek ei hk' hget (by omega)
      simp only [hbeqR]
      exact h0
    · subst hke
      have h0 := hdist i j ei ej hget hj' (by omega)
      simp only [hbeqL]
      exact h0
    · omega
  · have hstep : firstAppearance ((done.map (fun e => e.1)) ++ [pd.1])
        = firstAppearance (done.map (fun e => e.1)) := by
      rw [firstAppearance_append_singleton, if_pos hfaany]
    have hmapset : (acc.set i (addMissingDeps ei.1 pd.1, max ei.2 pd.2)).map
        (fun e => keyTriple e.1) = acc.map (fun e => keyTriple e.1) :=
      map_set_congr _ acc i _ ei hget hkeyeq
    simp only [List.map_append, List.map_cons, List.map_nil]
    rw [hstep, hmapset, hkeys]
  · intro k e hk
    rcases hgetset k e hk with ⟨hki, hk'⟩ | ⟨hki, hke⟩
    · rw [List.filter_append]
      have hpdfilter : List.filter (fun q => pkgBeq q.1 e.1) [pd] = [] := by
        have hne := hpdnomatch k e hki hk'
        simp [List.filter, hne]
      rw [hpdfilter, List.append_nil]
      exact hmax k e hk'
    · subst hke
      have hfiltercongr : (done ++ [pd]).filter
          (fun q => pkgBeq q.1 (addMissingDeps ei.1 pd.1)) =
          (done ++ [pd]).filter (fun q => pkgBeq q.1 ei.1) :=
        List.filter_congr (fun a _ => by rw [hbeqR a.1])
      rw [hfiltercongr, List.filter_append]
      have hpdfilter : List.filter (fun q => pkgBeq q.1 ei.1) [pd] = [pd] := by
        simp [List.filter, hm]
      rw [hpdfilter, List.map_append]
      have hold := hmax i ei hget
      simp only [List.map_cons, List.map_nil]
      rw [maxDepth_append_singleton, hold]
  · intro k e hk pd' hpd' hb d hd
    rcases hgetset k e hk with ⟨hki, hk'⟩ | ⟨hki, hke⟩
    · rcases List.mem_append.mp hpd' with hpd'' | hpd''
      · exact hdeps k e hk' pd' hpd'' hb d hd
      · exfalso
        have hpde : pd' = pd := List.mem_singleton.mp hpd''
        subst hpde
        have hfe := hpdnomatch k e hki hk'
        rw [hb] at hfe
        cases hfe
    · rcases List.mem_append.mp hpd' with hpd'' | hpd''
      · have hbe : pkgBeq pd'.1 ei.1 = true := by
          rw [hke] at hb
          rw [hbeqR] at hb
          exact hb
        have hold := hdeps i ei hget pd' hpd'' hbe d hd
        rw [hke]
        exact addMissingDeps_mem_old pd.1 hold
      · have hpde : pd' = pd := List.mem_singleton.mp hpd''
        rw [hke]
        rw [hpde] at hd
        exact addMissingDeps_mem_new ei.1 pd.1 d hd

theorem mergeInv_nil : MergeInv [] [] := by
  refine ⟨?_, ?_, ?_, ?_⟩
  · intro i j ei ej hi
    simp at hi
  · simp [firstAppearance]
  · intro k e hk
    simp at hk
  · intro k e hk
    simp at hk

theorem mergeStep_eq_append {acc : List (Package × Int)} {pd : Package × Int}
    (hnone : idxOf? pd.1 acc = none) : mergeStep acc pd = acc ++ [pd] := by
  unfold mergeStep
  rw [hnone]

theorem mergeFold_inv (flat : List (Package × Int)) :
    ∀ done acc, MergeInv done acc → MergeInv (done ++ flat) (flat.foldl mergeStep acc) := by
  induction flat with
  | nil =>
    intro done acc h
    simpa using h
  | cons pd rest ih =>
    intro done acc h
    have hstep : MergeInv (done ++ [pd]) (mergeStep acc pd) := by
      cases hidx : idxOf? pd.1 acc with
      | none =>
        rw [mergeStep_eq_append hidx]
        exact mergeStep_inv_none h hidx
      | some i => exact mergeStep_inv_some h hidx
    have hrest := ih (done ++ [pd]) (mergeStep acc pd) hstep
    simpa [List.append_assoc] using hrest

theorem compat_merged_eq (overrides : List Override)
    (innerSolve : Override → List Package × List Int) :
    (solve_in_compatibility_mode overrides innerSolve)
      = (let merged := ((overrides.map (fun ov =>
            (innerSolve ov).1.zip (innerSolve ov).2)).join).foldl mergeStep []
         (merged.map (fun e => e.1), merged.map (fun e => e.2))) := by
  unfold solve_in_compatibility_mode
  have h : ∀ (ovs : List Override) (acc : List (Package × Int)),
      ovs.foldl (fun acc ov =>
        ((innerSolve ov).1.zip (innerSolve ov).2).foldl mergeStep acc) acc
      = ((ovs.map (fun ov => (innerSolve ov).1.zip (innerSolve ov).2)).join).foldl
          mergeStep acc := by
    intro ovs
    induction ovs with
    | nil => intro acc; rfl
    | cons ov rest ih =>
      intro acc
      simp only [List.foldl_cons, List.map_cons, List.flatten_cons, List.foldl_append]
      exact ih _
  rw [h]

/-- C2: merging in `solve_in_compatibility_mode` visits overrides in input
order and each override's packages in per-override order.  Over the flattened
occurrence list: the final packages are, in order, the first appearances of
the occurrences (compared with `Package.__eq__`); each final depth is the
maximum of the depths of all matching occurrences across all individual
override solves; and every matching occurrence's requirements end up in the
stored package's requirements. -/
theorem C2_override_merge (overrides : List Override)
    (innerSolve : Override → List Package × List Int)
    (flat : List (Package × Int))
    (hflat : flat = (overrides.map (fun ov =>
        (innerSolve ov).1.zip (innerSolve ov).2)).join) :
    ((solve_in_compatibility_mode overrides innerSolve).1.map keyTriple
        = (firstAppearance (flat.map (fun e => e.1))).map keyTriple)
    ∧ (∀ k p dpt,
        (solve_in_compatibility_mode overrides innerSolve).1.get? k = some p →
        (solve_in_compatibility_mode overrides innerSolve).2.get? k = some dpt →
        maxDepth ((flat.filter (fun pd => pkgBeq pd.1 p)).map (fun x => x.2)) = some dpt)
    ∧ (∀ k p, (solve_in_compatibility_mode overrides innerSolve).1.get? k = some p →
        ∀ pd ∈ flat, pkgBeq pd.1 p = true →
        ∀ d ∈ pd.1.requires, depMem d p.requires = true) := by
  have hinv := mergeFold_inv flat [] [] mergeInv_nil
  rw [List.nil_append] at hinv
  obtain ⟨hdist, hkeys, hmax, hdeps⟩ := hinv
  have hcompat := compat_merged_eq overrides innerSolve
  rw [← hflat] at hcompat
  refine ⟨?_, ?_, ?_⟩
  · rw [hcompat]
    simp only [List.map_map]
    exact hkeys
  · intro k p dpt hp hd
    rw [hcompat] at hp hd
    simp only [List.get?_map] at hp hd
    rcases Option.map_eq_some'.mp hp with ⟨e, he, hep⟩
    rcases Option.map_eq_some'.mp hd with ⟨e', he', hed⟩
    rw [he] at he'
    have hee : e = e' := Option.some_inj.mp he'
    subst hee
    subst hep
    subst hed
    exact hmax k e he
  · intro k p hp pd hpd hb d hd
    rw [hcompat] at hp
    simp only [List.get?_map] at hp
    rcases Option.map_eq_some'.mp hp with ⟨e, he, hep⟩
    subst hep
    exact hdeps k e he pd hpd hb d hd

/-- Witness for C2 on the spec's concrete two-override scenario S7. -/
theorem C2_override_merge_witness :
    (solve_in_compatibility_mode [ov1, ov2] isolve).1.map keyTriple
      = (firstAppearance ((((([ov1, ov2] : List Override).map (fun ov =>
          (isolve ov).1.zip (isolve ov).2)).join).map (fun e => e.1)))).map keyTriple :=
  (C2_override_merge [ov1, ov2] isolve _ rfl).1

/-! State-evolution machinery of the DFS interpreter. -/

theorem seenHas_mono {seen : List Package} (t : List Package) {p : Package}
    (h : seenHas seen p = true) : seenHas (seen ++ t) p = true := by
  simp only [seenHas, List.any_eq_true] at *
  rcases h with ⟨s, hs, hb⟩
  exact ⟨s, List.mem_append_left _ hs, hb⟩

theorem reachable_seen (ctx : List Package) (n : PNode) (seen : List Package) :
    seenHas (reachable ctx n seen).2 n.pkg = true := by
  unfold reachable
  by_cases h : seenHas seen n.pkg = true
  · rw [if_pos h]
    exact h
  · rw [if_neg h]
    have happ : seenHas (seen ++ [n.pkg]) n.pkg = true := by
      simp only [seenHas, List.any_eq_true]
      exact ⟨n.pkg, List.mem_append_right _ (List.mem_singleton.mpr rfl), pkgBeq_refl _⟩
    by_cases hr : edgeReplay n = true
    · rw [if_pos hr]
      exact happ
    · rw [if_neg hr]
      exact happ

theorem reachable_seen_ext (ctx : List Package) (n : PNode) (seen : List Package) :
    ∃ t, (reachable ctx n seen).2 = seen ++ t := by
  unfold reachable
  by_cases h : seenHas seen n.pkg = true
  · rw [if_pos h]
    exact ⟨[], by simp⟩
  · rw [if_neg h]
    by_cases hr : edgeReplay n = true
    · rw [if_pos hr]
      exact ⟨[n.pkg], rfl⟩
    · rw [if_neg hr]
      exact ⟨[n.pkg], rfl⟩

theorem reachable_of_seen {ctx : List Package} {n : PNode} {seen : List Package}
    (h : seenHas seen n.pkg = true) : reachable ctx n seen = ([], seen) := by
  unfold reachable
  rw [if_pos h]

/-- Every child produced by `reachable` carries the context package at its
index and the initial depth `-1`. -/
theorem reachable_bound (ctx : List Package) (n : PNode) (seen : List Package) :
    ∀ c ∈ (reachable ctx n seen).1, ctx.get? c.pkgIdx = some c.pkg ∧ c.depth = -1 := by
  unfold reachable
  by_cases h : seenHas seen n.pkg = true
  · rw [if_pos h]
    intro c hc
    cases hc
  · rw [if_neg h]
    by_cases hr : edgeReplay n = true
    · rw [if_pos hr]
      intro c hc
      cases hc
    · rw [if_neg hr]
      simp only
      refine foldl_preserves
        (fun cs : List PNode => ∀ c ∈ cs, ctx.get? c.pkgIdx = some c.pkg ∧ c.depth = -1)
        _ _ _ ?_ ?_
      · intro c hc
        cases hc
      · intro cs d _ hcs
        by_cases hcg : cycleGuard n d = true
        · rw [if_pos hcg]
          exact hcs
        · rw [if_neg hcg]
          refine foldl_preserves
            (fun cs2 : List PNode => ∀ c ∈ cs2, ctx.get? c.pkgIdx = some c.pkg ∧ c.depth = -1)
            _ _ _ hcs ?_
          intro cs2 j hj hcs2
          by_cases hmatch : (depMatches d (ctx.getD (j + 1) dPkg)
              && !dupChild cs2 (ctx.getD (j + 1) dPkg) d) = true
          · rw [if_pos hmatch]
            intro c hc
            rcases List.mem_append.mp hc with hc' | hc'
            · exact hcs2 c hc'
            · have hceq : c = mkChild (j + 1) (ctx.getD (j + 1) dPkg) n d :=
                List.mem_singleton.mp hc'
              subst hceq
              have hjlt : j < ctx.length - 1 := List.mem_range.mp hj
              have hjlt' : j + 1 < ctx.length := by omega
              constructor
              · simp only [mkChild]
                rw [List.getD_eq_get?, List.get?_eq_get hjlt']
                rfl
              · rfl
          · rw [if_neg hmatch]
            exact hcs2

theorem visSet_marked {l : List (NodeId × VState)} {id' : NodeId} (id : NodeId)
    (s : VState) (hs : s ≠ VState.Unvisited) (h : isMarked l id' = true) :
    isMarked (visSet l id s) id' = true := by
  induction l with
  | nil =>
    simp [isMarked, visGet] at h
  | cons kv rest ih =>
    simp only [visSet]
    by_cases hb : idBeq kv.1 id = true
    · rw [if_pos hb]
      simp only [isMarked, visGet, List.find?] at h ⊢
      by_cases hb' : idBeq kv.1 id' = true
      · simp only [hb', Option.map_some']
        cases s with
        | Unvisited => exact absurd rfl hs
        | PartVisited => rfl
        | Visited => rfl
      · simp only [Bool.eq_false_iff.mpr hb'] at h ⊢
        exact h
    · rw [if_neg hb]
      simp only [isMarked, visGet, List.find?] at h ⊢
      by_cases hb' : idBeq kv.1 id' = true
      · simp only [hb'] at h ⊢
        exact h
      · simp only [Bool.eq_false_iff.mpr hb'] at h ⊢
        exact ih h

theorem get?_append_stable {α : Type} {l t : List α} {i : Nat} {x : α}
    (h : l.get? i = some x) : (l ++ t).get? i = some x := by
  rw [List.get?_append (get?_some_lt h)]
  exact h

theorem some_pair_inj {α β : Type} {a c : α} {b d : β}
    (h : (some (a, b) : Option (α × β)) = some (c, d)) : a = c ∧ b = d := by
  injection h with h
  exact ⟨congrArg Prod.fst h, congrArg Prod.snd h⟩

theorem stEvol_refl (st : DfsState) : StEvol st st :=
  ⟨⟨[], by simp⟩, ⟨[], by simp⟩, ⟨[], by simp⟩, fun _ h => h⟩

theorem stEvol_trans {s1 s2 s3 : DfsState} (h1 : StEvol s1 s2) (h2 : StEvol s2 s3) :
    StEvol s1 s3 := by
  obtain ⟨⟨t1, ha1⟩, ⟨t2, ha2⟩, ⟨t3, ha3⟩, hm1⟩ := h1
  obtain ⟨⟨u1, hb1⟩, ⟨u2, hb2⟩, ⟨u3, hb3⟩, hm2⟩ := h2
  refine ⟨⟨t1 ++ u1, ?_⟩, ⟨t2 ++ u2, ?_⟩, ⟨u3 ++ t3, ?_⟩, fun id h => hm2 id (hm1 id h)⟩
  · rw [hb1, ha1, List.append_assoc]
  · rw [hb2, ha2, List.append_assoc]
  · rw [hb3, ha3, List.append_assoc]

theorem dfsGo_evol (fuel : Nat) : ∀ (ctx : List Package) (task : DfsTask) (st : DfsState)
    (b : Bool) (st' : DfsState), dfsGo fuel ctx task st = some (b, st') →
    TaskBound ctx task → StEvol st st' ∧ (StGood ctx st → StGood ctx st') := by
  induction fuel with
  | zero =>
    intro ctx task st b st' h htask
    exact absurd h (by simp [dfsGo])
  | succ f ih =>
    intro ctx task st b st' h htask
    cases task with
    | visit node =>
      simp only [dfsGo] at h
      split at h
      · obtain ⟨rfl, rfl⟩ := some_pair_inj h
        exact ⟨stEvol_refl st, id⟩
      · obtain ⟨rfl, rfl⟩ := some_pair_inj h
        exact ⟨stEvol_refl st, id⟩
      · split at h
        · simp at h
        · next st3 hrec =>
          obtain ⟨rfl, rfl⟩ := some_pair_inj h
          have hchildren : TaskBound ctx (DfsTask.children
              (reachable ctx node st.seen).1 st.store.length) :=
            reachable_bound ctx node st.seen
          have hstep := ih ctx _ _ _ _ hrec hchildren
          rcases reachable_seen_ext ctx node st.seen with ⟨tseen, hts⟩
          have hevol1 : StEvol st { st with
              visited := visSet st.visited (nodeId node) VState.PartVisited,
              store := st.store ++ [node], seen := (reachable ctx node st.seen).2 } := by
            refine ⟨⟨[node], rfl⟩, ⟨tseen, hts⟩, ⟨[], by simp⟩, ?_⟩
            intro id hm
            exact visSet_marked _ _ (fun hc => VState.noConfusion hc) hm
          refine ⟨stEvol_trans hevol1 hstep.1, ?_⟩
          intro hg
          refine hstep.2 ?_
          obtain ⟨hg1, hg2⟩ := hg
          constructor
          · intro n hn
            rcases List.mem_append.mp hn with hn' | hn'
            · exact hg1 n hn'
            · have hne : n = node := List.mem_singleton.mp hn'
              subst hne
              exact htask
          · intro i hi
            rcases hg2 i hi with ⟨n, hni, hns⟩
            exact ⟨n, get?_append_stable hni, by rw [hts]; exact seenHas_mono _ hns⟩
        · next st3 hrec =>
          obtain ⟨rfl, rfl⟩ := some_pair_inj h
          have hchildren : TaskBound ctx (DfsTask.children
              (reachable ctx node st.seen).1 st.store.length) :=
            reachable_bound ctx node st.seen
          have hstep := ih ctx _ _ _ _ hrec hchildren
          rcases reachable_seen_ext ctx node st.seen with ⟨tseen, hts⟩
          have hevol1 : StEvol st { st with
              visited := visSet st.visited (nodeId node) VState.PartVisited,
              store := st.store ++ [node], seen := (reachable ctx node st.seen).2 } := by
            refine ⟨⟨[node], rfl⟩, ⟨tseen, hts⟩, ⟨[], by simp⟩, ?_⟩
            intro id hm
            exact visSet_marked _ _ (fun hc => VState.noConfusion hc) hm
          have hevol2 : StEvol st st3 := stEvol_trans hevol1 hstep.1
          have hevol3 : StEvol st3 { st3 with
              visited := visSet st3.visited (nodeId node) VState.Visited,
              sorted := st.store.length :: st3.sorted } := by
            refine ⟨⟨[], by simp⟩, ⟨[], by simp⟩, ⟨[st.store.length], rfl⟩, ?_⟩
            intro id hm
            exact visSet_marked _ _ (fun hc => VState.noConfusion hc) hm
          refine ⟨stEvol_trans hevol2 hevol3, ?_⟩
          intro hg
          obtain ⟨hg1, hg2⟩ := hg
          have hgmid : StGood ctx { st with
              visited := visSet st.visited (nodeId node) VState.PartVisited,
              store := st.store ++ [node], seen := (reachable ctx node st.seen).2 } := by
            constructor
            · intro n hn
              rcases List.mem_append.mp hn with hn' | hn'
              · exact hg1 n hn'
              · have hne : n = node := List.mem_singleton.mp hn'
                subst hne
                exact htask
            · intro i hi
              rcases hg2 i hi with ⟨n, hni, hns⟩
              exact ⟨n, get?_append_stable hni, by rw [hts]; exact seenHas_mono _ hns⟩
          have hg3 := hstep.2 hgmid
          obtain ⟨hg31, hg32⟩ := hg3
          constructor
          · exact hg31
          · intro i hi
            rcases List.mem_cons.mp hi with hieq | hi'
            · subst hieq
              obtain ⟨tst, htst⟩ := hstep.1.1
              have hnode : st3.store.get? st.store.length = some node := by
                rw [htst]
                exact get?_append_stable (by rw [List.get?_concat_length])
              refine ⟨node, hnode, ?_⟩
              obtain ⟨tsn, htsn⟩ := hstep.1.2.1
              rw [htsn]
              exact seenHas_mono _ (reachable_seen ctx node st.seen)
            · exact hg32 i hi'
    | children cs parentIdx =>
      cases cs with
      | nil =>
        simp only [dfsGo] at h
        obtain ⟨rfl, rfl⟩ := some_pair_inj h
        exact ⟨stEvol_refl st, id⟩
      | cons c rest =>
        simp only [dfsGo] at h
        split at h
        · simp at h
        · next st2 hrec =>
          obtain ⟨rfl, rfl⟩ := some_pair_inj h
          have hc : TaskBound ctx (DfsTask.visit c) := htask c (List.mem_cons_self _ _)
          have hstep := ih ctx _ _ _ _ hrec hc
          have hevol0 : StEvol st { st with
              backEdges := beAdd st.backEdges (nodeId c) parentIdx } :=
            ⟨⟨[], by simp⟩, ⟨[], by simp⟩, ⟨[], by simp⟩, fun _ hm => hm⟩
          refine ⟨stEvol_trans hevol0 hstep.1, ?_⟩
          intro hg
          exact hstep.2 ⟨hg.1, hg.2⟩
        · next st2 hrec =>
          have hc : TaskBound ctx (DfsTask.visit c) := htask c (List.mem_cons_self _ _)
          have hstep1 := ih ctx _ _ _ _ hrec hc
          have hrest : TaskBound ctx (DfsTask.children rest parentIdx) :=
            fun c' hc' => htask c' (List.mem_cons_of_mem _ hc')
          have hstep2 := ih ctx _ _ _ _ h hrest
          have hevol0 : StEvol st { st with
              backEdges := beAdd st.backEdges (nodeId c) parentIdx } :=
            ⟨⟨[], by simp⟩, ⟨[], by simp⟩, ⟨[], by simp⟩, fun _ hm => hm⟩
          refine ⟨stEvol_trans (stEvol_trans hevol0 hstep1.1) hstep2.1, ?_⟩
          intro hg
          exact hstep2.2 (hstep1.2 ⟨hg.1, hg.2⟩)

theorem dfsGo_true (fuel : Nat) : ∀ (ctx : List Package) (task : DfsTask) (st : DfsState)
    (b : Bool) (st' : DfsState), dfsGo fuel ctx task st = some (b, st') → b = true := by
  induction fuel with
  | zero =>
    intro ctx task st b st' h
    exact absurd h (by simp [dfsGo])
  | succ f ih =>
    intro ctx task st b st' h
    cases task with
    | visit node =>
      simp only [dfsGo] at h
      split at h
      · exact ((some_pair_inj h).1).symm
      · exact ((some_pair_inj h).1).symm
      · split at h
        · simp at h
        · next st3 hrec =>
          exact absurd (ih _ _ _ _ _ hrec) (by simp)
        · exact ((some_pair_inj h).1).symm
    | children cs parentIdx =>
      cases cs with
      | nil =>
        simp only [dfsGo] at h
        exact ((some_pair_inj h).1).symm
      | cons c rest =>
        simp only [dfsGo] at h
        split at h
        · simp at h
        · next st2 hrec =>
          exact absurd (ih _ _ _ _ _ hrec) (by simp)
        · exact ih _ _ _ _ _ h

/-- C10: whenever `dfs_visit` terminates it returns `True` — on every node and
every state of `back_edges`, `visited` and `sorted_nodes` — and likewise every
step of its loop over the neighbours; hence the early-abort branch (`return
False` when a recursive visit fails) is unreachable and `depth_first_search`
never stops the traversal early. -/
theorem C10_dfs_visit_true (fuel : Nat) (ctx : List Package) (node : PNode)
    (st : DfsState) :
    (∀ b st', dfs_visit fuel ctx node st = some (b, st') → b = true)
    ∧ (∀ cs parentIdx b st',
        dfsGo fuel ctx (DfsTask.children cs parentIdx) st = some (b, st') → b = true) :=
  ⟨fun b st' h => dfsGo_true fuel ctx (DfsTask.visit node) st b st' h,
   fun cs parentIdx b st' h => dfsGo_true fuel ctx (DfsTask.children cs parentIdx) st b st' h⟩

/-- Witness for C10: a concrete run of `dfs_visit` returns `True`. -/
theorem C10_dfs_visit_true_witness :
    (dfs_visit 3 [dPkg] (mkRoot dPkg) initState).map (fun r => r.1) = some true := by
  cases hres : dfs_visit 3 [dPkg] (mkRoot dPkg) initState with
  | none =>
    have hsome : (dfs_visit 3 [dPkg] (mkRoot dPkg) initState).isSome = true := by decide
    rw [hres] at hsome
    simp at hsome
  | some r =>
    have hb := (C10_dfs_visit_true 3 [dPkg] (mkRoot dPkg) initState).1 r.1 r.2
      (by rw [hres])
    simp [hb]

theorem visitAt_length (backEdges : List (NodeId × List Nat)) (store : List PNode)
    (i : Nat) : (visitAt backEdges store i).length = store.length := by
  unfold visitAt
  cases h : store.get? i with
  | none => rfl
  | some n => simp

theorem visitAt_get? (backEdges : List (NodeId × List Nat)) (store : List PNode)
    (i j : Nat) (m : PNode) (h : (visitAt backEdges store i).get? j = some m) :
    ∃ n, store.get? j = some n ∧ m.pkg = n.pkg ∧ m.pkgIdx = n.pkgIdx
      ∧ (m = n ∨ m.depth ≥ -1) := by
  unfold visitAt at h
  cases hsi : store.get? i with
  | none =>
    rw [hsi] at h
    exact ⟨m, h, rfl, rfl, Or.inl rfl⟩
  | some n0 =>
    rw [hsi] at h
    by_cases hij : j = i
    · subst hij
      rw [List.get?_set_eq_of_lt _ (get?_some_lt hsi)] at h
      have hm := (Option.some_inj.mp h).symm
      subst hm
      refine ⟨n0, hsi, rfl, rfl, Or.inr ?_⟩
      have := foldr_max_init_le (-2)
        (((beGet backEdges (nodeId n0)).map (fun p => store.getD p dNode)).map
          (fun p => if p.pkg.name != n0.pkg.name then p.depth else p.depth - 1))
      simp only [PackageNode_visit]
      omega
    · rw [List.get?_set_ne _ _ (fun he => hij he.symm)] at h
      exact ⟨m, h, rfl, rfl, Or.inl rfl⟩

theorem ncExtend_nil {l : List (CName × List PNode)} (key : CName)
    (h : ∀ e ∈ l, e.2 = []) : ∀ e ∈ ncExtend l key [], e.2 = [] := by
  induction l with
  | nil =>
    intro e he
    simp only [ncExtend, List.mem_singleton] at he
    subst he
    rfl
  | cons kv rest ih =>
    intro e he
    simp only [ncExtend] at he
    by_cases hb : cnBeq kv.1 key = true
    · rw [if_pos hb] at he
      rcases List.mem_cons.mp he with heq | he'
      · have hkv := h kv (List.mem_cons_self _ _)
        rw [heq]
        simpa using hkv
      · exact h e (List.mem_cons_of_mem _ he')
    · rw [if_neg hb] at he
      rcases List.mem_cons.mp he with heq | he'
      · rw [heq]
        exact h kv (List.mem_cons_self _ _)
      · exact ih (fun e' he'' => h e' (List.mem_cons_of_mem _ he'')) e he'

/-- Invariant of the combination loop: the shared `seen` list never changes
(every second `reachable` call returns empty), store entries keep their
package and index, and every `name_children` value list stays empty. -/
theorem combinePhase_inv (ctx : List Package) (backEdges : List (NodeId × List Nat))
    (sorted : List Nat) (store0 : List PNode) (seen0 : List Package)
    (hsorted : ∀ i ∈ sorted, ∃ n, store0.get? i = some n ∧ seenHas seen0 n.pkg = true) :
    (combinePhase ctx backEdges sorted store0 seen0).seen = seen0
    ∧ ((combinePhase ctx backEdges sorted store0 seen0).store.length = store0.length)
    ∧ (∀ j m, (combinePhase ctx backEdges sorted store0 seen0).store.get? j = some m →
        ∃ n, store0.get? j = some n ∧ m.pkg = n.pkg ∧ m.pkgIdx = n.pkgIdx
          ∧ (m = n ∨ m.depth ≥ -1))
    ∧ (∀ e ∈ (combinePhase ctx backEdges sorted store0 seen0).nameChildren, e.2 = []) := by
  unfold combinePhase
  refine foldl_preserves (fun acc : CombineOut =>
      acc.seen = seen0
      ∧ acc.store.length = store0.length
      ∧ (∀ j m, acc.store.get? j = some m →
          ∃ n, store0.get? j = some n ∧ m.pkg = n.pkg ∧ m.pkgIdx = n.pkgIdx
            ∧ (m = n ∨ m.depth ≥ -1))
      ∧ (∀ e ∈ acc.nameChildren, e.2 = []))
    _ sorted _ ?_ ?_
  · exact ⟨rfl, rfl, fun j m hm => ⟨m, hm, rfl, rfl, Or.inl rfl⟩, fun e he => by cases he⟩
  · intro acc i hi ⟨hseen, hlen, hstore, hnc⟩
    rcases hsorted i hi with ⟨n0, hn0, hs0⟩
    have hstore1 : ∀ j m, (visitAt backEdges acc.store i).get? j = some m →
        ∃ n, store0.get? j = some n ∧ m.pkg = n.pkg ∧ m.pkgIdx = n.pkgIdx
          ∧ (m = n ∨ m.depth ≥ -1) := by
      intro j m hm
      rcases visitAt_get? backEdges acc.store i j m hm with ⟨n1, hn1, hp, hpi, hdep⟩
      rcases hstore j n1 hn1 with ⟨n2, hn2, hp2, hpi2, hdep2⟩
      refine ⟨n2, hn2, hp.trans hp2, hpi.trans hpi2, ?_⟩
      rcases hdep with rfl | hd
      · exact hdep2
      · exact Or.inr hd
    have hilt : i < (visitAt backEdges acc.store i).length := by
      rw [visitAt_length, hlen]
      exact get?_some_lt hn0
    have hmn : ∃ m, (visitAt backEdges acc.store i).get? i = some m := by
      cases hm : (visitAt backEdges acc.store i).get? i with
      | none =>
        rw [List.get?_eq_none] at hm
        omega
      | some m => exact ⟨m, rfl⟩
    rcases hmn with ⟨m, hm⟩
    rcases hstore1 i m hm with ⟨n2, hn2, hpkg, hpidx, _⟩
    have hn2n0 : n2 = n0 := by
      rw [hn0] at hn2
      exact (Option.some_inj.mp hn2).symm
    subst hn2n0
    have hmguard : seenHas acc.seen m.pkg = true := by
      rw [hseen, hpkg]
      exact hs0
    have hgetd : (visitAt backEdges acc.store i).getD i dNode = m := by
      rw [List.getD_eq_get?, hm]
      rfl
    have hreach : reachable ctx ((visitAt backEdges acc.store i).getD i dNode) acc.seen
        = ([], acc.seen) := by
      rw [hgetd]
      exact reachable_of_seen hmguard
    refine ⟨?_, ?_, ?_, ?_⟩
    · simp only [hreach]
      exact hseen
    · simp only []
      rw [visitAt_length]
      exact hlen
    · simp only []
      exact hstore1
    · simp only [hreach]
      exact ncExtend_nil _ hnc

/-- C9: after the DFS completes, every node of the topologically sorted list
already has its package in the shared `seen` list, so the second
`node.reachable()` call made in the combination loop of `depth_first_search`
returns the empty list and leaves `seen` unchanged; consequently every
`name_children` value list handed to `aggregate_package_nodes` is empty, and
category and optionality are determined by the same-name nodes alone. -/
theorem C9_seen_persists (root : Package) (packages : List Package) (fuel : Nat)
    (b : Bool) (st : DfsState)
    (h : dfs_visit fuel (root :: packages) (mkRoot root) initState = some (b, st)) :
    (∀ i ∈ st.sorted, ∀ n, st.store.get? i = some n →
        reachable (root :: packages) n st.seen = ([], st.seen))
    ∧ (∀ e ∈ (combinePhase (root :: packages) st.backEdges st.sorted st.store
        st.seen).nameChildren, e.2 = []) := by
  have hbound : TaskBound (root :: packages) (DfsTask.visit (mkRoot root)) := by
    constructor
    · rfl
    · rfl
  have hevol := dfsGo_evol fuel (root :: packages) (DfsTask.visit (mkRoot root))
    initState b st h hbound
  have hgood : StGood (root :: packages) st := by
    refine hevol.2 ⟨?_, ?_⟩
    · intro n hn
      cases hn
    · intro i hi
      cases hi
  obtain ⟨hg1, hg2⟩ := hgood
  constructor
  · intro i hi n hn
    rcases hg2 i hi with ⟨n', hn', hs'⟩
    rw [hn] at hn'
    have hne : n = n' := Option.some_inj.mp hn'
    subst hne
    exact reachable_of_seen hs'
  · exact (combinePhase_inv (root :: packages) st.backEdges st.sorted st.store
      st.seen hg2).2.2.2

/-- Witness for C9 on the concrete cycle scenario: after the DFS, the
combination loop's `name_children` lists are all empty. -/
theorem C9_seen_persists_witness :
    ((dfs_visit 30 (rootS3 :: [aS3, bS3]) (mkRoot rootS3) initState).map (fun r =>
      ((combinePhase (rootS3 :: [aS3, bS3]) r.2.backEdges r.2.sorted r.2.store
        r.2.seen).nameChildren).all (fun e => e.2.isEmpty))) = some true := by
  cases hres : dfs_visit 30 (rootS3 :: [aS3, bS3]) (mkRoot rootS3) initState with
  | none =>
    have hsome : (dfs_visit 30 (rootS3 :: [aS3, bS3]) (mkRoot rootS3)
        initState).isSome = true := by decide
    rw [hres] at hsome
    simp at hsome
  | some r =>
    have hnc := (C9_seen_persists rootS3 [aS3, bS3] 30 r.1 r.2 (by rw [hres])).2
    simp only [Option.map_some']
    congr 1
    rw [List.all_eq_true]
    intro e he
    rw [List.isEmpty_iff]
    exact hnc e he

theorem emitFinal_mem (results : List (Package × Int)) :
    ∀ (merged : List Package) (pairs : List (Package × Int)),
      emitFinal results merged = some pairs →
      ∀ e ∈ pairs, e.1.features = [] ∧ resultsGet results e.1 = some e.2 := by
  intro merged
  induction merged with
  | nil =>
    intro pairs h e he
    simp only [emitFinal, Option.some_inj] at h
    subst h
    cases he
  | cons p rest ih =>
    intro pairs h e he
    simp only [emitFinal] at h
    by_cases hf : p.features.isEmpty = true
    · rw [if_pos hf] at h
      cases hres : resultsGet results p with
      | none =>
        rw [hres] at h
        cases h
      | some d =>
        rw [hres] at h
        rcases Option.map_eq_some'.mp h with ⟨l, hl, hply⟩
        subst hply
        rcases List.mem_cons.mp he with heq | he'
        · subst heq
          exact ⟨List.isEmpty_iff.mp hf, hres⟩
        · exact ih l hl e he'
    · rw [if_neg hf] at h
      exact ih pairs h e he

theorem resultsGet_mem {results : List (Package × Int)} {p : Package} {d : Int}
    (h : resultsGet results p = some d) : ∃ e ∈ results, e.2 = d := by
  unfold resultsGet at h
  cases hf : results.find? (fun e => pkgBeq e.1 p) with
  | none => rw [hf] at h; cases h
  | some e =>
    rw [hf] at h
    refine ⟨e, List.mem_of_find?_eq_some hf, ?_⟩
    exact Option.some_inj.mp h

theorem mem_set_cases {α : Type} {x v : α} : ∀ {l : List α} {i : Nat},
    x ∈ l.set i v → x ∈ l ∨ x = v := by
  intro l
  induction l with
  | nil =>
    intro i h
    simp at h
  | cons y ys ih =>
    intro i h
    cases i with
    | zero =>
      rcases List.mem_cons.mp h with heq | h'
      · exact Or.inr heq
      · exact Or.inl (List.mem_cons_of_mem _ h')
    | succ j =>
      rcases List.mem_cons.mp h with heq | h'
      · exact Or.inl (heq ▸ List.mem_cons_self _ _)
      · rcases ih h' with h'' | h''
        · exact Or.inl (List.mem_cons_of_mem _ h'')
        · exact Or.inr h''

theorem getD_mem_or {α : Type} (l : List α) (k : Nat) (d : α) :
    l.getD k d ∈ l ∨ l.getD k d = d := by
  rw [List.getD_eq_get?]
  cases h : l.get? k with
  | none => exact Or.inr rfl
  | some x => exact Or.inl (List.get?_mem h)

theorem aggregate_depth_ge {nodes children : List PNode}
    {nodes' : List PNode} {package' : Package} {depth : Int}
    (h : aggregate_package_nodes nodes children = some (nodes', package', depth))
    (hn : ∀ n ∈ nodes, n.depth ≥ -1) :
    depth ≥ -1 ∧ (∀ n' ∈ nodes', n'.depth = depth) := by
  cases nodes with
  | nil => cases h
  | cons n0 rest =>
    simp only [aggregate_package_nodes, Option.some_inj] at h
    have hdepth : depth = ((n0 :: rest).map (fun n => n.depth)).foldr max n0.depth := by
      have := congrArg (fun t => t.2.2) h
      simpa using this.symm
    constructor
    · rw [hdepth]
      have h1 := foldr_max_init_le n0.depth ((n0 :: rest).map (fun n => n.depth))
      have h2 := hn n0 (List.mem_cons_self _ _)
      omega
    · intro n' hn'
      have h1 := congrArg (fun t => t.1) h
      simp only at h1
      rw [← h1] at hn'
      rcases List.mem_map.mp hn' with ⟨n, _, he⟩
      rw [← he]
      simpa using hdepth.symm

theorem aggLoop_depths (nameChildren : List (CName × List PNode)) :
    ∀ (groups : List (List Nat)) (store : List PNode) (ctx : List Package)
      (acc : List (Package × Int)) (res : List (Package × Int)) (ctx' : List Package),
      (∀ n ∈ store, n.depth ≥ -1) → (∀ e ∈ acc, e.2 ≥ -1) →
      aggLoop nameChildren groups store ctx acc = some (res, ctx') →
      ∀ e ∈ res, e.2 ≥ -1 := by
  intro groups
  induction groups with
  | nil =>
    intro store ctx acc res ctx' hstore hacc h e he
    simp only [aggLoop, Option.some_inj] at h
    have hr : res = acc := (congrArg (fun t => t.1) h).symm
    subst hr
    exact hacc e he
  | cons group rest ih =>
    intro store ctx acc res ctx' hstore hacc h e he
    simp only [aggLoop] at h
    split at h
    · cases h
    · next nodes' package' depth hagg =>
      have hnodes : ∀ n ∈ group.map (fun k => store.getD k dNode), n.depth ≥ -1 := by
        intro n hn
        rcases List.mem_map.mp hn with ⟨k, _, he'⟩
        subst he'
        rcases getD_mem_or store k dNode with hm | hm
        · exact hstore _ hm
        · rw [hm]
          decide
      have hd := aggregate_depth_ge hagg hnodes
      have hstore' : ∀ n ∈ (group.zip nodes').foldl
          (fun s kn => s.set kn.1 kn.2) store, n.depth ≥ -1 := by
        refine foldl_preserves (fun s : List PNode => ∀ n ∈ s, n.depth ≥ -1) _ _ _ hstore ?_
        intro s kn hkn hs n hn
        rcases mem_set_cases hn with hm | hm
        · exact hs n hm
        · subst hm
          have hkn2 : kn.2 ∈ nodes' := (List.of_mem_zip hkn).2
          rw [hd.2 kn.2 hkn2]
          exact hd.1
      have hacc' : ∀ e ∈ acc ++ [(package', depth)], e.2 ≥ -1 := by
        intro e' he'
        rcases List.mem_append.mp he' with h' | h'
        · exact hacc e' h'
        · have : e' = (package', depth) := List.mem_singleton.mp h'
          rw [this]
          exact hd.1
      exact ih _ _ _ res ctx' hstore' hacc' h e he

theorem depth_first_search_depths (root : Package) (packages : List Package) (fuel : Nat)
    (results : List (Package × Int)) (ctx' : List Package)
    (h : depth_first_search root packages fuel = some (results, ctx')) :
    ∀ e ∈ results, e.2 ≥ -1 := by
  simp only [depth_first_search] at h
  split at h
  · cases h
  · next b st hdfs =>
    have hbound : TaskBound (root :: packages) (DfsTask.visit (mkRoot root)) := ⟨rfl, rfl⟩
    have hevol := dfsGo_evol fuel _ _ _ _ _ hdfs hbound
    have hgood : StGood (root :: packages) st := by
      refine hevol.2 ⟨?_, ?_⟩
      · intro n hn
        cases hn
      · intro i hi
        cases hi
    obtain ⟨hg1, hg2⟩ := hgood
    have hci := combinePhase_inv (root :: packages) st.backEdges st.sorted st.store
      st.seen hg2
    have hstore : ∀ n ∈ (combinePhase (root :: packages) st.backEdges st.sorted
        st.store st.seen).store, n.depth ≥ -1 := by
      intro n hn
      rcases List.mem_iff_get?.mp hn with ⟨j, hj⟩
      rcases hci.2.2.1 j n hj with ⟨n0, hn0, _, _, hdep⟩
      rcases hdep with heq | hd
      · have hd0 := (hg1 n0 (List.get?_mem hn0)).2
        rw [heq, hd0]
      · exact hd
    exact aggLoop_depths _ _ _ _ [] results ctx' hstore (fun e he => by cases he) h

/-- Counterexample to C6 as stated: when the engine result contains a package
equal to the root (here the root project `a@1` depends on the pool package
`a@1` of the same name and version), the root node and the package's node are
combined under one complete name, the package's depth evaluates to `-1`, and
`_solve` emits the pair with depth `-1 < 0`. -/
theorem C6_depth_counterexample :
    (solvePost rootC6 [poolC6] 20).map (fun r => r.2) = some [-1]
    ∧ ((-1 : Int) < 0) ∧ poolC6.features = [] := by
  refine ⟨by decide, by decide, rfl⟩

/-- C6 amended: for every `(p, d)` in the output of `_solve`, `d ≥ -1` (the
bound `d ≥ 0` fails when a result package collides with the root, see the
counterexample; `-1` is the exact floor enforced by the visit sentinel) and
`p` is never a feature package. -/
theorem C6_output_depth_floor (root : Package) (packages : List Package) (fuel : Nat)
    (fp : List Package) (ds : List Int)
    (h : solvePost root packages fuel = some (fp, ds)) :
    (∀ d ∈ ds, d ≥ -1) ∧ (∀ p ∈ fp, p.features = []) := by
  simp only [solvePost] at h
  split at h
  · cases h
  · next results ctx2 hdfs =>
    split at h
    · cases h
    · next pairs hemit =>
      obtain ⟨hfp, hds⟩ := some_pair_inj h
      have hmem := emitFinal_mem results _ pairs hemit
      constructor
      · intro d hd
        rw [← hds] at hd
        rcases List.mem_map.mp hd with ⟨e, he, hde⟩
        rcases resultsGet_mem (hmem e he).2 with ⟨entry, hentry, hdent⟩
        have hge := depth_first_search_depths root packages fuel results ctx2 hdfs
          entry hentry
        omega
      · intro p hp
        rw [← hfp] at hp
        rcases List.mem_map.mp hp with ⟨e, he, hpe⟩
        rw [← hpe]
        exact (hmem e he).1

/-- Witness for the amended C6 on the concrete cycle scenario. -/
theorem C6_output_depth_floor_witness :
    ∃ fp ds, solvePost rootS3 [aS3, bS3] 30 = some (fp, ds)
      ∧ (∀ d ∈ ds, d ≥ -1) ∧ (∀ p ∈ fp, p.features = []) := by
  cases hres : solvePost rootS3 [aS3, bS3] 30 with
  | none =>
    have hsome : (solvePost rootS3 [aS3, bS3] 30).isSome = true := by decide
    rw [hres] at hsome
    simp at hsome
  | some r =>
    have hth := C6_output_depth_floor rootS3 [aS3, bS3] 30 r.1 r.2 (by rw [hres])
    exact ⟨r.1, r.2, rfl, hth.1, hth.2⟩

theorem pkgSim_refl (p : Package) : PkgSim p p :=
  ⟨rfl, rfl, rfl, rfl, rfl⟩

theorem pkgExt_refl (p : Package) : PkgExt p p :=
  ⟨rfl, rfl, rfl, rfl, [], by simp⟩

theorem pkgExt_trans {p q r : Package} (h1 : PkgExt p q) (h2 : PkgExt q r) : PkgExt p r := by
  obtain ⟨a1, a2, a3, a4, t1, a5⟩ := h1
  obtain ⟨b1, b2, b3, b4, t2, b5⟩ := h2
  exact ⟨b1.trans a1, b2.trans a2, b3.trans a3, b4.trans a4, t1 ++ t2,
    by rw [b5, a5, List.append_assoc]⟩

theorem pkgSim_ext {p q : Package} (h : PkgSim p q) : PkgExt p q := by
  obtain ⟨a1, a2, a3, a4, a5⟩ := h
  exact ⟨a1, a2, a3, a5, [], by simp [a4]⟩

theorem listExt_refl (l : List Package) : ListExt l l :=
  ⟨rfl, fun _ p h => ⟨p, h, pkgExt_refl p⟩⟩

theorem listExt_trans {l1 l2 l3 : List Package} (h1 : ListExt l1 l2) (h2 : ListExt l2 l3) :
    ListExt l1 l3 := by
  refine ⟨h1.1.trans h2.1, ?_⟩
  intro k p hp
  rcases h1.2 k p hp with ⟨q, hq, he1⟩
  rcases h2.2 k q hq with ⟨r, hr, he2⟩
  exact ⟨r, hr, pkgExt_trans he1 he2⟩

theorem addFeatureDeps_ext (q p : Package) : PkgExt q (addFeatureDeps q p) := by
  unfold addFeatureDeps
  refine foldl_preserves (fun r => PkgExt q r) _ p.requires q (pkgExt_refl q) ?_
  intro acc d _ ⟨a1, a2, a3, a4, t, a5⟩
  by_cases hs : d.sameAsPkg acc = true
  · rw [if_pos hs]
    exact ⟨a1, a2, a3, a4, t, a5⟩
  · rw [if_neg hs]
    by_cases hm : depMem d acc.requires = true
    · rw [if_pos hm]
      exact ⟨a1, a2, a3, a4, t, a5⟩
    · rw [if_neg hm]
      exact ⟨a1, a2, a3, a4, t ++ [d], by simp [a5]⟩

theorem featureStep_ext (ps : List Package) (i : Nat) : ListExt ps (featureStep ps i) := by
  unfold featureStep
  split
  · exact listExt_refl ps
  · next p hi =>
    split
    · exact listExt_refl ps
    · refine foldl_preserves (fun acc => ListExt ps acc) _ _ _ (listExt_refl ps) ?_
      intro acc j _ hext
      split
      · exact hext
      · next q hj =>
        split
        · refine ⟨hext.1.trans (by simp), ?_⟩
          intro k p0 hp0
          rcases hext.2 k p0 hp0 with ⟨q0, hq0, he0⟩
          by_cases hkj : k = j
          · subst hkj
            rw [hj] at hq0
            have hqq : q = q0 := Option.some_inj.mp hq0
            subst hqq
            refine ⟨addFeatureDeps q p, ?_, pkgExt_trans he0 (addFeatureDeps_ext q p)⟩
            rw [List.get?_set_eq_of_lt _ (get?_some_lt hj)]
          · exact ⟨q0, by rw [List.get?_set_ne _ _ (fun he => hkj he.symm)]; exact hq0, he0⟩
        · exact hext

theorem featureMergePass_ext (ps : List Package) : ListExt ps (featureMergePass ps) := by
  unfold featureMergePass
  refine foldl_preserves (fun acc => ListExt ps acc) _ _ _ (listExt_refl ps) ?_
  intro acc i _ hext
  exact listExt_trans hext (featureStep_ext acc i)

theorem cnAppend_mem {l : List (CName × List Nat)} {key : CName} {idx : Nat} :
    ∀ e ∈ cnAppend l key idx, ∀ k ∈ e.2, (∃ e0 ∈ l, k ∈ e0.2) ∨ k = idx := by
  induction l with
  | nil =>
    intro e he k hk
    simp only [cnAppend, List.mem_singleton] at he
    subst he
    simp only [List.mem_singleton] at hk
    exact Or.inr hk
  | cons kv rest ih =>
    intro e he k hk
    simp only [cnAppend] at he
    by_cases hb : cnBeq kv.1 key = true
    · rw [if_pos hb] at he
      rcases List.mem_cons.mp he with heq | he'
      · subst heq
        simp only [List.mem_append, List.mem_singleton] at hk
        rcases hk with hk' | hk'
        · exact Or.inl ⟨kv, List.mem_cons_self _ _, hk'⟩
        · exact Or.inr hk'
      · exact Or.inl ⟨e, List.mem_cons_of_mem _ he', hk⟩
    · rw [if_neg hb] at he
      rcases List.mem_cons.mp he with heq | he'
      · subst heq
        exact Or.inl ⟨e, List.mem_cons_self _ _, hk⟩
      · rcases ih e he' k hk with ⟨e0, he0, hk0⟩ | hk0
        · exact Or.inl ⟨e0, List.mem_cons_of_mem _ he0, hk0⟩
        · exact Or.inr hk0

theorem cnRemove_sub {l : List (CName × List Nat)} {key : CName} :
    ∀ e ∈ cnRemove l key, e ∈ l := by
  induction l with
  | nil =>
    intro e he
    cases he
  | cons kv rest ih =>
    intro e he
    simp only [cnRemove] at he
    by_cases hb : cnBeq kv.1 key = true
    · rw [if_pos hb] at he
      exact List.mem_cons_of_mem _ he
    · rw [if_neg hb] at he
      rcases List.mem_cons.mp he with heq | he'
      · subst heq
        exact List.mem_cons_self _ _
      · exact List.mem_cons_of_mem _ (ih e he')

theorem combinePhase_combined_sub (ctx : List Package)
    (backEdges : List (NodeId × List Nat)) (sorted : List Nat) (store0 : List PNode)
    (seen0 : List Package) :
    ∀ e ∈ (combinePhase ctx backEdges sorted store0 seen0).combined,
      ∀ k ∈ e.2, k ∈ sorted := by
  unfold combinePhase
  refine foldl_preserves
    (fun acc : CombineOut => ∀ e ∈ acc.combined, ∀ k ∈ e.2, k ∈ sorted) _ sorted _ ?_ ?_
  · intro e he
    cases he
  · intro acc i hi hacc e he k hk
    rcases cnAppend_mem e he k hk with ⟨e0, he0, hk0⟩ | hk0
    · exact hacc e0 he0 k hk0
    · subst hk0
      exact hi

theorem combinedTopo_sub (store : List PNode) (sorted : List Nat)
    (combined : List (CName × List Nat)) :
    ∀ g ∈ combinedTopo store sorted combined, ∃ e ∈ combined, g = e.2 := by
  unfold combinedTopo
  have hfold : ∀ (acc : List (List Nat) × List (CName × List Nat)),
      (∀ g ∈ acc.1, ∃ e ∈ combined, g = e.2) → (∀ e ∈ acc.2, e ∈ combined) →
      (∀ g ∈ (sorted.foldl (fun acc idx =>
          match acc.2.find? (fun kv => cnBeq kv.1 (cnOf (store.getD idx dNode).pkg)) with
          | some kv => (acc.1 ++ [kv.2], cnRemove acc.2 (cnOf (store.getD idx dNode).pkg))
          | none => acc) acc).1, ∃ e ∈ combined, g = e.2) := by
    intro acc hg hsub
    refine foldl_preserves (fun acc : List (List Nat) × List (CName × List Nat) =>
        (∀ g ∈ acc.1, ∃ e ∈ combined, g = e.2) ∧ (∀ e ∈ acc.2, e ∈ combined))
      _ sorted acc ⟨hg, hsub⟩ ?_ |>.1
    intro acc' idx _ ⟨hg', hsub'⟩
    cases hfind : acc'.2.find? (fun kv => cnBeq kv.1 (cnOf (store.getD idx dNode).pkg)) with
    | none => exact ⟨hg', hsub'⟩
    | some kv =>
      constructor
      · intro g hgm
        rcases List.mem_append.mp hgm with hgm' | hgm'
        · exact hg' g hgm'
        · have hge : g = kv.2 := List.mem_singleton.mp hgm'
          subst hge
          exact ⟨kv, hsub' kv (List.mem_of_find?_eq_some hfind), rfl⟩
      · intro e he
        exact hsub' e (cnRemove_sub e he)
  intro g hgm
  exact hfold ([], combined) (fun g hg => by cases hg) (fun e he => he) g hgm

theorem getD_valid {α : Type} {l : List α} {k : Nat} (d : α) (h : k < l.length) :
    l.get? k = some (l.getD k d) := by
  rw [List.getD_eq_get?]
  cases hk : l.get? k with
  | none =>
    rw [List.get?_eq_none] at hk
    omega
  | some x => rfl

theorem aggregate_inv {nodes children nodes' : List PNode} {package' : Package}
    {depth : Int}
    (h : aggregate_package_nodes nodes children = some (nodes', package', depth)) :
    ∃ n0 rest, nodes = n0 :: rest
      ∧ package'.name = n0.pkg.name ∧ package'.features = n0.pkg.features
      ∧ package'.version = n0.pkg.version ∧ package'.requires = n0.pkg.requires
      ∧ package'.devRequires = n0.pkg.devRequires
      ∧ (∀ m' ∈ nodes', ∃ m ∈ nodes, m'.pkg = m.pkg ∧ m'.pkgIdx = m.pkgIdx) := by
  cases nodes with
  | nil => cases h
  | cons n0 rest =>
    simp only [aggregate_package_nodes, Option.some_inj] at h
    have hpkg : package' = { n0.pkg with
        category := if ((children ++ n0 :: rest).any fun n =>
            n.groups.contains "default") = true then "main" else "dev",
        optional := (children ++ n0 :: rest).all fun n => n.optional } := by
      have := congrArg (fun t => t.2.1) h
      simpa using this.symm
    have hnodes : nodes' = (n0 :: rest).map (fun n => { n with
        depth := ((n0 :: rest).map (fun n => n.depth)).foldr max n0.depth,
        category := if ((children ++ n0 :: rest).any fun n =>
            n.groups.contains "default") = true then "main" else "dev",
        optional := (children ++ n0 :: rest).all fun n => n.optional }) := by
      have := congrArg (fun t => t.1) h
      simpa using this.symm
    refine ⟨n0, rest, rfl, ?_, ?_, ?_, ?_, ?_, ?_⟩
    · rw [hpkg]
    · rw [hpkg]
    · rw [hpkg]
    · rw [hpkg]
    · rw [hpkg]
    · intro m' hm'
      rw [hnodes] at hm'
      rcases List.mem_map.mp hm' with ⟨m, hm, he⟩
      exact ⟨m, hm, by rw [← he], by rw [← he]⟩

theorem aggLoop_ctx_sim (nameChildren : List (CName × List PNode))
    (ctxOrig : List Package) :
    ∀ (groups : List (List Nat)) (store : List PNode) (ctxCur : List Package)
      (acc : List (Package × Int)) (res : List (Package × Int)) (ctx' : List Package),
      (∀ n ∈ store, ctxOrig.get? n.pkgIdx = some n.pkg) →
      (∀ g ∈ groups, ∀ k ∈ g, k < store.length) →
      ctxCur.length = ctxOrig.length →
      (∀ k p, ctxOrig.get? k = some p → ∃ q, ctxCur.get? k = some q ∧ PkgSim p q) →
      aggLoop nameChildren groups store ctxCur acc = some (res, ctx') →
      ctx'.length = ctxOrig.length
        ∧ (∀ k p, ctxOrig.get? k = some p → ∃ q, ctx'.get? k = some q ∧ PkgSim p q) := by
  intro groups
  induction groups with
  | nil =>
    intro store ctxCur acc res ctx' hbound hvalid hlen hsim h
    simp only [aggLoop, Option.some_inj] at h
    have hc : ctx' = ctxCur := (congrArg (fun t => t.2) h).symm
    subst hc
    exact ⟨hlen, hsim⟩
  | cons group rest ih =>
    intro store ctxCur acc res ctx' hbound hvalid hlen hsim h
    simp only [aggLoop] at h
    split at h
    · cases h
    · next nodes' package' depth hagg =>
      rcases aggregate_inv hagg with ⟨n0, nrest, hng, hp1, hp2, hp3, hp4, hp5, hmap⟩
      have hmem_of_group : ∀ m, m ∈ group.map (fun k => store.getD k dNode) → m ∈ store := by
        intro m hm
        rcases List.mem_map.mp hm with ⟨k0, hk0, hke⟩
        have hk0lt : k0 < store.length :=
          hvalid group (List.mem_cons_self _ _) k0 hk0
        have hsome : store.get? k0 = some m := by
          rw [getD_valid dNode hk0lt, hke]
        exact List.get?_mem hsome
      have hn0mem : n0 ∈ store := by
        refine hmem_of_group n0 ?_
        rw [hng]
        exact List.mem_cons_self _ _
      have hn0bound : ctxOrig.get? n0.pkgIdx = some n0.pkg := hbound n0 hn0mem
      have hidxlt : n0.pkgIdx < ctxCur.length := by
        rw [hlen]
        exact get?_some_lt hn0bound
      have hheadD : (group.map (fun k => store.getD k dNode)).getD 0 dNode = n0 := by
        have := congrArg (fun l => l.getD 0 dNode) hng
        simpa using this
      have hsim' : ∀ k p, ctxOrig.get? k = some p →
          ∃ q, (ctxCur.set ((group.map (fun k => store.getD k dNode)).getD 0
              dNode).pkgIdx package').get? k = some q ∧ PkgSim p q := by
        rw [hheadD]
        intro k p hk
        by_cases hki : k = n0.pkgIdx
        · subst hki
          refine ⟨package', ?_, ?_⟩
          · rw [List.get?_set_eq_of_lt _ hidxlt]
          · have hpn0 : n0.pkg = p := Option.some_inj.mp (hn0bound.symm.trans hk)
            rw [← hpn0]
            exact ⟨hp1, hp2, hp3, hp4, hp5⟩
        · rcases hsim k p hk with ⟨q, hq, hqs⟩
          exact ⟨q, by rw [List.get?_set_ne _ _ (fun he => hki he.symm)]; exact hq, hqs⟩
      have hbound' : ∀ n ∈ (group.zip nodes').foldl (fun s kn => s.set kn.1 kn.2) store,
          ctxOrig.get? n.pkgIdx = some n.pkg := by
        refine foldl_preserves
          (fun s : List PNode => ∀ n ∈ s, ctxOrig.get? n.pkgIdx = some n.pkg)
          _ _ _ hbound ?_
        intro s kn hkn hs n hn
        rcases mem_set_cases hn with hm | hm
        · exact hs n hm
        · subst hm
          rcases hmap kn.2 (List.of_mem_zip hkn).2 with ⟨m, hmm, hpe, hie⟩
          rw [hpe, hie]
          exact hbound m (hmem_of_group m hmm)
      have hlenstore : ((group.zip nodes').foldl (fun s kn => s.set kn.1 kn.2)
          store).length = store.length := by
        refine foldl_preserves (fun s : List PNode => s.length = store.length)
          _ _ _ rfl ?_
        intro s kn _ hsl
        rw [List.length_set]
        exact hsl
      have hvalid' : ∀ g ∈ rest, ∀ k ∈ g,
          k < ((group.zip nodes').foldl (fun s kn => s.set kn.1 kn.2) store).length := by
        rw [hlenstore]
        exact fun g hg => hvalid g (List.mem_cons_of_mem _ hg)
      have hlen' : (ctxCur.set ((group.map (fun k => store.getD k dNode)).getD 0
          dNode).pkgIdx package').length = ctxOrig.length := by
        rw [List.length_set]
        exact hlen
      exact ih _ _ _ res ctx' hbound' hvalid' hlen' hsim' h

theorem depth_first_search_ctx_sim (root : Package) (packages : List Package)
    (fuel : Nat) (results : List (Package × Int)) (ctx2 : List Package)
    (h : depth_first_search root packages fuel = some (results, ctx2)) :
    ctx2.length = packages.length + 1
    ∧ (∀ k p, (root :: packages).get? k = some p →
        ∃ q, ctx2.get? k = some q ∧ PkgSim p q) := by
  simp only [depth_first_search] at h
  split at h
  · cases h
  · next b st hdfs =>
    have hbound0 : TaskBound (root :: packages) (DfsTask.visit (mkRoot root)) := ⟨rfl, rfl⟩
    have hevol := dfsGo_evol fuel _ _ _ _ _ hdfs hbound0
    have hgood : StGood (root :: packages) st := by
      refine hevol.2 ⟨?_, ?_⟩
      · intro n hn
        cases hn
      · intro i hi
        cases hi
    obtain ⟨hg1, hg2⟩ := hgood
    have hci := combinePhase_inv (root :: packages) st.backEdges st.sorted st.store
      st.seen hg2
    have hbound : ∀ n ∈ (combinePhase (root :: packages) st.backEdges st.sorted
        st.store st.seen).store, (root :: packages).get? n.pkgIdx = some n.pkg := by
      intro n hn
      rcases List.mem_iff_get?.mp hn with ⟨j, hj⟩
      rcases hci.2.2.1 j n hj with ⟨n0, hn0, hp, hi, _⟩
      rw [hp, hi]
      exact (hg1 n0 (List.get?_mem hn0)).1
    have hvalid : ∀ g ∈ combinedTopo (combinePhase (root :: packages) st.backEdges
          st.sorted st.store st.seen).store st.sorted
          (combinePhase (root :: packages) st.backEdges st.sorted st.store
            st.seen).combined,
        ∀ k ∈ g, k < (combinePhase (root :: packages) st.backEdges st.sorted st.store
          st.seen).store.length := by
      intro g hg k hk
      rcases combinedTopo_sub _ _ _ g hg with ⟨e, hec, hge⟩
      have hks : k ∈ st.sorted :=
        combinePhase_combined_sub (root :: packages) st.backEdges st.sorted st.store
          st.seen e hec k (by rw [← hge]; exact hk)
      rcases hg2 k hks with ⟨n, hkn, _⟩
      rw [hci.2.1]
      exact get?_some_lt hkn
    have hmain := aggLoop_ctx_sim (combinePhase (root :: packages) st.backEdges
        st.sorted st.store st.seen).nameChildren (root :: packages) _ _
        (root :: packages) [] results ctx2 hbound hvalid rfl
        (fun k p hk => ⟨p, hk, pkgSim_refl p⟩) h
    refine ⟨?_, hmain.2⟩
    rw [hmain.1]
    simp

theorem emitFinal_fst (results : List (Package × Int)) :
    ∀ (merged : List Package) (pairs : List (Package × Int)),
      emitFinal results merged = some pairs →
      pairs.map (fun e => e.1) = merged.filter (fun p => p.features.isEmpty) := by
  intro merged
  induction merged with
  | nil =>
    intro pairs h
    simp only [emitFinal, Option.some_inj] at h
    subst h
    rfl
  | cons p rest ih =>
    intro pairs h
    simp only [emitFinal] at h
    by_cases hf : p.features.isEmpty = true
    · rw [if_pos hf] at h
      cases hres : resultsGet results p with
      | none =>
        rw [hres] at h
        cases h
      | some d =>
        rw [hres] at h
        rcases Option.map_eq_some'.mp h with ⟨l, hl, hply⟩
        subst hply
        simp only [List.map_cons, List.filter_cons, hf, if_true]
        rw [ih l hl]
    · rw [if_neg hf] at h
      simp only [List.filter_cons]
      rw [if_neg hf]
      exact ih pairs h

theorem listNF_trans {l1 l2 l3 : List Package} (h1 : ListNF l1 l2) (h2 : ListNF l2 l3) :
    ListNF l1 l3 := by
  obtain ⟨hl1, hnf1⟩ := h1
  obtain ⟨hl2, hnf2⟩ := h2
  refine ⟨hl1.trans hl2, ?_⟩
  intro k p q hp hq
  have hk : k < l2.length := by
    have := get?_some_lt hp
    omega
  cases hm : l2.get? k with
  | none =>
    rw [List.get?_eq_none] at hm
    omega
  | some m =>
    have ha := hnf1 k p m hp hm
    have hb := hnf2 k m q hm hq
    exact ⟨hb.1.trans ha.1, hb.2.trans ha.2⟩

theorem listExt_nf {l1 l2 : List Package} (h : ListExt l1 l2) : ListNF l1 l2 := by
  refine ⟨h.1, ?_⟩
  intro k p q hp hq
  rcases h.2 k p hp with ⟨q', hq', he⟩
  rw [hq] at hq'
  have : q = q' := Option.some_inj.mp hq'
  subst this
  exact ⟨he.1, he.2.1⟩

theorem listNF_forall2 : ∀ (l1 l2 : List Package), ListNF l1 l2 →
    List.Forall₂ (fun p q => q.name = p.name ∧ q.features = p.features) l1 l2 := by
  intro l1
  induction l1 with
  | nil =>
    intro l2 h
    cases l2 with
    | nil => exact List.Forall₂.nil
    | cons b bs => simp [ListNF] at h
  | cons a as ih =>
    intro l2 h
    cases l2 with
    | nil => simp [ListNF] at h
    | cons b bs =>
      refine List.Forall₂.cons (h.2 0 a b rfl rfl) (ih bs ⟨?_, ?_⟩)
      · have := h.1
        simpa using this
      · intro k p q hp hq
        exact h.2 (k + 1) p q (by simpa using hp) (by simpa using hq)

theorem filter_map_cn {l1 l2 : List Package}
    (h : List.Forall₂ (fun p q => q.name = p.name ∧ q.features = p.features) l1 l2) :
    (l2.filter (fun p => p.features.isEmpty)).map cnOf
      = (l1.filter (fun p => p.features.isEmpty)).map cnOf := by
  induction h with
  | nil => rfl
  | @cons p q ps qs hpq hrest ih =>
    have hfe : q.features.isEmpty = p.features.isEmpty := by rw [hpq.2]
    simp only [List.filter_cons, hfe]
    by_cases hf : p.features.isEmpty = true
    · simp only [hf, if_true, List.map_cons]
      have hcq : cnOf q = cnOf p := by
        simp [cnOf, hpq.1, hpq.2]
      rw [hcq, ih]
    · rw [if_neg hf, if_neg hf]
      exact ih

theorem drop_one_nf (root : Package) (packages ctx2 : List Package)
    (hlen : ctx2.length = packages.length + 1)
    (hsim : ∀ k p, (root :: packages).get? k = some p →
      ∃ q, ctx2.get? k = some q ∧ PkgSim p q) :
    ListNF packages (ctx2.drop 1) := by
  refine ⟨by simp [hlen], ?_⟩
  intro k p q hp hq
  have hp' : (root :: packages).get? (k + 1) = some p := by simpa using hp
  rcases hsim (k + 1) p hp' with ⟨q', hq', hsimq⟩
  have hqd : (ctx2.drop 1).get? k = ctx2.get? (1 + k) := List.get?_drop ctx2 1 k
  rw [hq, Nat.add_comm 1 k, hq'] at hqd
  have hqq : q = q' := Option.some_inj.mp hqd
  subst hqq
  exact ⟨hsimq.1, hsimq.2.1⟩

/-- Counterexample to C5 as stated: with the engine result ordered `[b, a]`
where `a` directly (and non-cyclically) requires `b`, `_solve` returns the
packages in the engine's order — `b` before `a` — with depths `[1, 0]`, so a
package can appear before its dependent. -/
theorem C5_topo_counterexample :
    (solvePost rootC5 [bC5, aC5] 30).map (fun r => r.1.map Package.name)
        = some ["b", "a"]
    ∧ (∃ d ∈ aC5.requires, depMatches d bC5 = true)
    ∧ bC5.requires = [] ∧ bC5.devRequires = []
    ∧ (solvePost rootC5 [bC5, aC5] 30).map (fun r => r.2) = some [1, 0] := by
  exact ⟨by decide, by decide, rfl, rfl, by decide⟩

/-- C5 amended: the output of `_solve` preserves the engine result's original
order — the emitted packages are exactly the non-feature packages of the
engine result, in the engine's order (by complete name); the topological order
produced by the DFS governs only the internal node list and the depth values,
not the returned package order. -/
theorem C5_output_order (root : Package) (packages : List Package) (fuel : Nat)
    (fp : List Package) (ds : List Int)
    (h : solvePost root packages fuel = some (fp, ds)) :
    fp.map cnOf = (packages.filter (fun p => p.features.isEmpty)).map cnOf := by
  simp only [solvePost] at h
  split at h
  · cases h
  · next results ctx2 hdfs =>
    split at h
    · cases h
    · next pairs hemit =>
      obtain ⟨hfp, _⟩ := some_pair_inj h
      have hsim := depth_first_search_ctx_sim root packages fuel results ctx2 hdfs
      have hnf1 : ListNF packages (ctx2.drop 1) :=
        drop_one_nf root packages ctx2 hsim.1 hsim.2
      have hnf2 : ListNF (ctx2.drop 1) (featureMergePass (ctx2.drop 1)) :=
        listExt_nf (featureMergePass_ext _)
      have hnf := listNF_trans hnf1 hnf2
      have hfilter := filter_map_cn (listNF_forall2 _ _ hnf)
      have hfst := emitFinal_fst results _ pairs hemit
      rw [← hfp, hfst]
      exact hfilter

/-- Witness for the amended C5 on the concrete diamond scenario. -/
theorem C5_output_order_witness :
    ∃ fp ds, solvePost rootS2 [aS2, bS2, cS2] 30 = some (fp, ds)
      ∧ fp.map cnOf = ([aS2, bS2, cS2].filter (fun p => p.features.isEmpty)).map cnOf := by
  cases hres : solvePost rootS2 [aS2, bS2, cS2] 30 with
  | none =>
    have hsome : (solvePost rootS2 [aS2, bS2, cS2] 30).isSome = true := by decide
    rw [hres] at hsome
    simp at hsome
  | some r =>
    exact ⟨r.1, r.2, rfl,
      C5_output_order rootS2 [aS2, bS2, cS2] 30 r.1 r.2 (by rw [hres])⟩

theorem sameAsPkg_congr (d : Dependency) {q q' : Package} (hn : q.name = q'.name)
    (hf : q.features = q'.features) : d.sameAsPkg q = d.sameAsPkg q' := by
  simp [Dependency.sameAsPkg, hn, hf]

theorem sameSpec_congr {a a' b b' : Package} (h1 : a.name = a'.name)
    (h2 : a.features = a'.features) (h3 : b.name = b'.name) (h4 : b.features = b'.features) :
    sameSpec a b = sameSpec a' b' := by
  simp [sameSpec, h1, h2, h3, h4]

theorem featureCond_congr {p p' q q' : Package} (hp1 : p.name = p'.name)
    (hp2 : p.features = p'.features) (hp3 : p.version = p'.version)
    (hq1 : q.name = q'.name) (hq2 : q.features = q'.features) (hq3 : q.version = q'.version) :
    (q.name == p.name && !sameSpec q p && q.version == p.version)
      = (q'.name == p'.name && !sameSpec q' p' && q'.version == p'.version) := by
  rw [sameSpec_congr hq1 hq2 hp1 hp2, hp1, hq1, hp3, hq3]

theorem addFeatureDeps_mem (q p : Package) :
    ∀ d ∈ p.requires, d.sameAsPkg q = false →
    depMem d (addFeatureDeps q p).requires = true := by
  intro d hd hs
  unfold addFeatureDeps
  have mono : ∀ (rs : List Dependency) (q' : Package), depMem d q'.requires = true →
      depMem d ((rs.foldl (fun q'' d' =>
        if d'.sameAsPkg q'' then q''
        else if depMem d' q''.requires then q''
        else { q'' with requires := q''.requires ++ [d'] }) q')).requires = true := by
    intro rs q' h0
    refine foldl_preserves (fun q3 => depMem d q3.requires = true) _ rs q' h0 ?_
    intro acc y _ hacc
    by_cases h1 : y.sameAsPkg acc = true
    · simpa [h1] using hacc
    · simp only [h1]
      by_cases h2 : depMem y acc.requires = true
      · simpa [h2] using hacc
      · simp only [h2]
        simp only [Bool.false_eq_true, if_false]
        exact depMem_append_left [y] hacc
  have main : ∀ (rs : List Dependency) (q' : Package), q'.name = q.name →
      q'.features = q.features → d ∈ rs →
      depMem d ((rs.foldl (fun q'' d' =>
        if d'.sameAsPkg q'' then q''
        else if depMem d' q''.requires then q''
        else { q'' with requires := q''.requires ++ [d'] }) q')).requires = true := by
    intro rs
    induction rs with
    | nil =>
      intro q' _ _ hmem
      cases hmem
    | cons x xs ih =>
      intro q' hn hf hmem
      rcases List.mem_cons.mp hmem with heq | hmem'
      · subst heq
        have hguard : d.sameAsPkg q' = false := by
          rw [sameAsPkg_congr d hn hf]
          exact hs
        have hstep : depMem d ((if d.sameAsPkg q' then q'
            else if depMem d q'.requires then q'
            else { q' with requires := q'.requires ++ [d] }).requires) = true := by
          rw [hguard]
          simp only [Bool.false_eq_true, if_false]
          by_cases hm : depMem d q'.requires = true
          · simp [hm]
          · simp only [hm, Bool.false_eq_true, if_false]
            exact depMem_self_append d q'.requires
        have := mono xs _ hstep
        simpa using this
      · refine ih _ ?_ ?_ hmem'
        · by_cases h1 : x.sameAsPkg q' = true
          · simpa [h1] using hn
          · simp only [h1]
            by_cases h2 : depMem x q'.requires = true
            · simpa [h2] using hn
            · simp only [h2]
              simpa using hn
        · by_cases h1 : x.sameAsPkg q' = true
          · simpa [h1] using hf
          · simp only [h1]
            by_cases h2 : depMem x q'.requires = true
            · simpa [h2] using hf
            · simp only [h2]
              simpa using hf
  exact main p.requires q rfl rfl hd

theorem depMem_ext {d : Dependency} {p q : Package} (h : PkgExt p q)
    (hm : depMem d p.requires = true) : depMem d q.requires = true := by
  rcases h.2.2.2.2 with ⟨t, ht⟩
  rw [ht]
  exact depMem_append_left t hm

theorem featureStep_memAt {j : Nat} {d : Dependency} {s : List Package} {i : Nat}
    (h : MemAt j d s) : MemAt j d (featureStep s i) := by
  unfold featureStep
  split
  · exact h
  · next p hi =>
    split
    · exact h
    · refine foldl_preserves (fun acc => MemAt j d acc) _ _ _ h ?_
      intro acc k _ hacc
      split
      · exact hacc
      · next q hq =>
        split
        · rcases hacc with ⟨q', hq', hm⟩
          by_cases hkj : k = j
          · subst hkj
            rw [hq] at hq'
            have hqq : q = q' := Option.some_inj.mp hq'
            subst hqq
            refine ⟨addFeatureDeps q p, ?_, depMem_ext (addFeatureDeps_ext q p) hm⟩
            rw [List.get?_set_eq_of_lt _ (get?_some_lt hq)]
          · exact ⟨q', by rw [List.get?_set_ne _ _ hkj]; exact hq', hm⟩
        · exact hacc

theorem featureStep_mem {s : List Package} {i j : Nat} {p q : Package} {d : Dependency}
    (hi : s.get? i = some p) (hpf : ¬ p.features.isEmpty = true)
    (hj : s.get? j = some q)
    (hcond : (q.name == p.name && !sameSpec q p && q.version == p.version) = true)
    (hd : d ∈ p.requires) (hs : d.sameAsPkg q = false) :
    MemAt j d (featureStep s i) := by
  unfold featureStep
  rw [hi]
  simp only [hpf, if_false, Bool.false_eq_true]
  have hjrange : j ∈ List.range s.length := List.mem_range.mpr (get?_some_lt hj)
  have main : ∀ (L : List Nat) (acc : List Package), ListExt s acc → j ∈ L →
      MemAt j d (L.foldl (fun acc j' =>
        match acc.get? j' with
        | none => acc
        | some q' =>
          if q'.name == p.name && !sameSpec q' p && q'.version == p.version then
            acc.set j' (addFeatureDeps q' p)
          else acc) acc) := by
    intro L
    induction L with
    | nil =>
      intro acc _ hmem
      cases hmem
    | cons k rest ih =>
      intro acc hext hmem
      have hinner_ext : ∀ (acc' : List Package) (k' : Nat), ListExt s acc' →
          ListExt s (match acc'.get? k' with
            | none => acc'
            | some q' =>
              if q'.name == p.name && !sameSpec q' p && q'.version == p.version then
                acc'.set k' (addFeatureDeps q' p)
              else acc') := by
        intro acc' k' hext'
        split
        · exact hext'
        · next q0 hq0 =>
          split
          · refine ⟨hext'.1.trans (by simp), ?_⟩
            intro k0 p0 hp0
            rcases hext'.2 k0 p0 hp0 with ⟨q1, hq1, he1⟩
            by_cases hk0 : k0 = k'
            · subst hk0
              rw [hq0] at hq1
              have hqq : q0 = q1 := Option.some_inj.mp hq1
              subst hqq
              refine ⟨addFeatureDeps q0 p, ?_, pkgExt_trans he1 (addFeatureDeps_ext q0 p)⟩
              rw [List.get?_set_eq_of_lt _ (get?_some_lt hq0)]
            · exact ⟨q1, by rw [List.get?_set_ne _ _ (fun he => hk0 he.symm)]; exact hq1, he1⟩
          · exact hext'
      have hinner_memAt : ∀ (acc' : List Package) (k' : Nat), MemAt j d acc' →
          MemAt j d (match acc'.get? k' with
            | none => acc'
            | some q' =>
              if q'.name == p.name && !sameSpec q' p && q'.version == p.version then
                acc'.set k' (addFeatureDeps q' p)
              else acc') := by
        intro acc' k' hacc
        split
        · exact hacc
        · next q0 hq0 =>
          split
          · rcases hacc with ⟨q', hq', hm⟩
            by_cases hkj : k' = j
            · subst hkj
              rw [hq0] at hq'
              have hqq : q0 = q' := Option.some_inj.mp hq'
              subst hqq
              refine ⟨addFeatureDeps q0 p, ?_, depMem_ext (addFeatureDeps_ext q0 p) hm⟩
              rw [List.get?_set_eq_of_lt _ (get?_some_lt hq0)]
            · exact ⟨q', by rw [List.get?_set_ne _ _ hkj]; exact hq', hm⟩
          · exact hacc
      by_cases hkj : k = j
      · subst hkj
        rcases hext.2 k q hj with ⟨qc, hqc, heq⟩
        have hestab : MemAt k d (match acc.get? k with
            | none => acc
            | some q' =>
              if q'.name == p.name && !sameSpec q' p && q'.version == p.version then
                acc.set k (addFeatureDeps q' p)
              else acc) := by
          rw [hqc]
          have hcond' : (qc.name == p.name && !sameSpec qc p && qc.version == p.version)
              = true := by
            rw [featureCond_congr rfl rfl rfl heq.1 heq.2.1 heq.2.2.1]
            exact hcond
          show MemAt k d (if (qc.name == p.name && !sameSpec qc p
              && qc.version == p.version) = true then acc.set k (addFeatureDeps qc p)
            else acc)
          rw [if_pos hcond']
          refine ⟨addFeatureDeps qc p, ?_, ?_⟩
          · rw [List.get?_set_eq_of_lt _ (get?_some_lt hqc)]
          · refine addFeatureDeps_mem qc p d hd ?_
            rw [sameAsPkg_congr d heq.1 heq.2.1]
            exact hs
        simp only [List.foldl_cons]
        refine foldl_preserves (fun acc' => MemAt k d acc') _ rest _ hestab ?_
        intro acc' k' _ hacc
        exact hinner_memAt acc' k' hacc
      · simp only [List.foldl_cons]
        refine ih _ (hinner_ext acc k hext) ?_
        rcases List.mem_cons.mp hmem with heq | hmem'
        · exact absurd heq.symm hkj
        · exact hmem'
  exact main (List.range s.length) s (listExt_refl s) hjrange

theorem featureMergePass_mem {ps : List Package} {i j : Nat} {p q : Package}
    {d : Dependency}
    (hi : ps.get? i = some p) (hpf : ¬ p.features.isEmpty = true)
    (hj : ps.get? j = some q)
    (hcond : (q.name == p.name && !sameSpec q p && q.version == p.version) = true)
    (hd : d ∈ p.requires) (hs : d.sameAsPkg q = false) :
    MemAt j d (featureMergePass ps) := by
  unfold featureMergePass
  have hirange : i ∈ List.range ps.length := List.mem_range.mpr (get?_some_lt hi)
  have main : ∀ (L : List Nat) (s : List Package), ListExt ps s → i ∈ L →
      MemAt j d (L.foldl featureStep s) := by
    intro L
    induction L with
    | nil =>
      intro s _ hmem
      cases hmem
    | cons k rest ih =>
      intro s hext hmem
      by_cases hki : k = i
      · subst hki
        rcases hext.2 k p hi with ⟨pc, hpc, hpe⟩
        rcases hext.2 j q hj with ⟨qc, hqc, hqe⟩
        have hpf' : ¬ pc.features.isEmpty = true := by
          rw [hpe.2.1]
          exact hpf
        have hcond' : (qc.name == pc.name && !sameSpec qc pc
            && qc.version == pc.version) = true := by
          rw [featureCond_congr hpe.1 hpe.2.1 hpe.2.2.1 hqe.1 hqe.2.1 hqe.2.2.1]
          exact hcond
        have hd' : d ∈ pc.requires := by
          rcases hpe.2.2.2.2 with ⟨t, ht⟩
          rw [ht]
          exact List.mem_append_left _ hd
        have hs' : d.sameAsPkg qc = false := by
          rw [sameAsPkg_congr d hqe.1 hqe.2.1]
          exact hs
        have hestab := featureStep_mem hpc hpf' hqc hcond' hd' hs'
        simp only [List.foldl_cons]
        refine foldl_preserves (fun s' => MemAt j d s') _ rest _ hestab ?_
        intro s' k' _ hacc
        exact featureStep_memAt hacc
      · simp only [List.foldl_cons]
        refine ih _ (listExt_trans hext (featureStep_ext s k)) ?_
        rcases List.mem_cons.mp hmem with heq | hmem'
        · exact absurd heq.symm hki
        · exact hmem'
  exact main (List.range ps.length) ps (listExt_refl ps) hirange

/-- C1: the feature-merge pass of `_solve`.  When `_solve` succeeds, no feature
package is emitted into the returned list; and for a feature package `p` of
the engine result and any other result package `q` of the same name and
version that is not the same package specification, every dependency `d` of
`p` that does not refer to `q` itself ends up (up to dependency value
equality) in `q`'s requirements in the merged package list that `_solve`
emits from. -/
theorem C1_feature_merge (root : Package) (packages : List Package) (fuel : Nat)
    (fp : List Package) (ds : List Int) (i j : Nat) (p q : Package) (d : Dependency)
    (h : solvePost root packages fuel = some (fp, ds))
    (hi : packages.get? i = some p) (hpf : p.features ≠ [])
    (hj : packages.get? j = some q) (hname : q.name = p.name)
    (hspec : sameSpec q p = false) (hver : q.version = p.version)
    (hd : d ∈ p.requires) (hs : d.sameAsPkg q = false) :
    (∀ x ∈ fp, x.features = [])
    ∧ (∃ results ctx2 q', depth_first_search root packages fuel = some (results, ctx2)
        ∧ (featureMergePass (ctx2.drop 1)).get? j = some q'
        ∧ depMem d q'.requires = true) := by
  simp only [solvePost] at h
  split at h
  · cases h
  · next results ctx2 hdfs =>
    split at h
    · cases h
    · next pairs hemit =>
      obtain ⟨hfp, _⟩ := some_pair_inj h
      constructor
      · intro x hx
        rw [← hfp] at hx
        rcases List.mem_map.mp hx with ⟨e, he, hxe⟩
        rw [← hxe]
        exact (emitFinal_mem results _ pairs hemit e he).1
      · have hsim := depth_first_search_ctx_sim root packages fuel results ctx2 hdfs
        have hdropget : ∀ k pk, packages.get? k = some pk →
            ∃ qk, (ctx2.drop 1).get? k = some qk ∧ PkgSim pk qk := by
          intro k pk hk
          rcases hsim.2 (k + 1) pk (by simpa using hk) with ⟨qk, hqk, hsimk⟩
          refine ⟨qk, ?_, hsimk⟩
          rw [List.get?_drop, Nat.add_comm 1 k]
          exact hqk
        rcases hdropget i p hi with ⟨pc, hpc, hpe⟩
        rcases hdropget j q hj with ⟨qc, hqc, hqe⟩
        have hpf' : ¬ pc.features.isEmpty = true := by
          rw [hpe.2.1]
          intro hc
          exact hpf (List.isEmpty_iff.mp hc)
        have hcond' : (qc.name == pc.name && !sameSpec qc pc
            && qc.version == pc.version) = true := by
          rw [featureCond_congr hpe.1 hpe.2.1 hpe.2.2.1 hqe.1 hqe.2.1 hqe.2.2.1]
          simp only [Bool.and_eq_true, beq_iff_eq, Bool.not_eq_true']
          exact ⟨⟨hname, hspec⟩, hver⟩
        have hd' : d ∈ pc.requires := by
          rw [hpe.2.2.2.1]
          exact hd
        have hs' : d.sameAsPkg qc = false := by
          rw [sameAsPkg_congr d hqe.1 hqe.2.1]
          exact hs
        rcases featureMergePass_mem hpc hpf' hqc hcond' hd' hs' with ⟨q', hq', hm⟩
        exact ⟨results, ctx2, q', hdfs, hq', hm⟩

/-- Witness for C1 on the concrete feature-merge scenario S6: `pkg[extra]`'s
dependency `dep2` is pushed into the base package `pkg`. -/
theorem C1_feature_merge_witness :
    ∃ fp ds, solvePost rootS6 [pkgS6, pkgX, d1p, d2p] 40 = some (fp, ds)
      ∧ ((∀ x ∈ fp, x.features = [])
        ∧ (∃ results ctx2 q',
            depth_first_search rootS6 [pkgS6, pkgX, d1p, d2p] 40 = some (results, ctx2)
            ∧ (featureMergePass (ctx2.drop 1)).get? 0 = some q'
            ∧ depMem dep2 q'.requires = true)) := by
  cases hres : solvePost rootS6 [pkgS6, pkgX, d1p, d2p] 40 with
  | none =>
    have hsome : (solvePost rootS6 [pkgS6, pkgX, d1p, d2p] 40).isSome = true := by decide
    rw [hres] at hsome
    simp at hsome
  | some r =>
    exact ⟨r.1, r.2, rfl,
      C1_feature_merge rootS6 [pkgS6, pkgX, d1p, d2p] 40 r.1 r.2 1 0 pkgX pkgS6 dep2
        (by rw [hres]) rfl (by decide) rfl rfl (by decide) rfl (by decide) (by decide)⟩

theorem vBound_pos (K u : Nat) : 1 ≤ vBound K u := by
  cases u with
  | zero => exact Nat.le_refl 1
  | succ u' => simp only [vBound]; omega

theorem vBound_le_succ (K u : Nat) : vBound K u ≤ vBound K (u + 1) := by
  induction u with
  | zero => simp only [vBound]; omega
  | succ u' ih =>
    show 2 + K * (1 + vBound K u') ≤ 2 + K * (1 + vBound K (u' + 1))
    have hm := mul_le_mul_left' (Nat.add_le_add_left ih 1) K
    omega

theorem vBound_mono (K : Nat) {u v : Nat} (h : u ≤ v) : vBound K u ≤ vBound K v := by
  induction v with
  | zero =>
    have h0 := Nat.le_zero.mp h
    subst h0
    exact Nat.le_refl _
  | succ v' ih =>
    rcases Nat.lt_or_ge u (v' + 1) with hlt | hge
    · exact Nat.le_trans (ih (Nat.lt_succ_iff.mp hlt)) (vBound_le_succ K v')
    · have he : u = v' + 1 := Nat.le_antisymm h hge
      rw [he]

theorem idBeq_congr_right {a b : NodeId} (h : idBeq a b = true) (x : NodeId) :
    idBeq x a = idBeq x b := by
  cases hx : idBeq x a with
  | true => exact (idBeq_trans hx h).symm
  | false =>
    cases hx' : idBeq x b with
    | false => rfl
    | true =>
      have hc := idBeq_trans hx' (idBeq_symm h)
      rw [hc] at hx
      cases hx

theorem isMarked_congr {a b : NodeId} (h : idBeq a b = true)
    (l : List (NodeId × VState)) : isMarked l a = isMarked l b := by
  have hfind : l.find? (fun kv => idBeq kv.1 a) = l.find? (fun kv => idBeq kv.1 b) := by
    induction l with
    | nil => rfl
    | cons kv rest ih =>
      simp only [List.find?]
      rw [idBeq_congr_right h kv.1]
      cases hb : idBeq kv.1 b with
      | true => rfl
      | false => exact ih
  simp only [isMarked, visGet, hfind]

theorem visSet_marks_self (l : List (NodeId × VState)) (id : NodeId) {s : VState}
    (hs : s ≠ VState.Unvisited) : isMarked (visSet l id s) id = true := by
  induction l with
  | nil =>
    simp only [visSet, isMarked, visGet, List.find?, idBeq_refl]
    cases s with
    | Unvisited => exact absurd rfl hs
    | PartVisited => rfl
    | Visited => rfl
  | cons kv rest ih =>
    simp only [visSet]
    by_cases hb : idBeq kv.1 id = true
    · simp only [if_pos hb, isMarked, visGet, List.find?, hb]
      cases s with
      | Unvisited => exact absurd rfl hs
      | PartVisited => rfl
      | Visited => rfl
    · rw [if_neg hb]
      simp only [isMarked, visGet, List.find?, Bool.eq_false_iff.mpr hb] at ih ⊢
      exact ih

theorem visSet_marks_rel {x id : NodeId} (h : idBeq x id = true)
    (l : List (NodeId × VState)) {s : VState} (hs : s ≠ VState.Unvisited) :
    isMarked (visSet l id s) x = true := by
  rw [isMarked_congr h]
  exact visSet_marks_self l id hs

theorem filter_length_le_of_imp {α : Type} (p q : α → Bool) :
    ∀ l : List α, (∀ x ∈ l, q x = true → p x = true) →
      (l.filter q).length ≤ (l.filter p).length := by
  intro l
  induction l with
  | nil => intro _; exact Nat.le_refl 0
  | cons a as ih =>
    intro h
    simp only [List.filter_cons]
    cases hq : q a with
    | true =>
      rw [h a (List.mem_cons_self a as) hq]
      simp only [List.length_cons]
      exact Nat.succ_le_succ (ih (fun x hx => h x (List.mem_cons_of_mem _ hx)))
    | false =>
      cases hp : p a with
      | true =>
        simp only [List.length_cons]
        exact Nat.le_succ_of_le (ih (fun x hx => h x (List.mem_cons_of_mem _ hx)))
      | false => exact ih (fun x hx => h x (List.mem_cons_of_mem _ hx))

theorem filter_length_lt_of_flip {α : Type} (p q : α → Bool) :
    ∀ l : List α, (∀ x ∈ l, q x = true → p x = true) →
      ∀ x ∈ l, p x = true → q x = false →
      (l.filter q).length < (l.filter p).length := by
  intro l
  induction l with
  | nil =>
    intro _ x hx
    cases hx
  | cons a as ih =>
    intro h x hx hp hq
    rcases List.mem_cons.mp hx with heq | hx'
    · subst heq
      simp only [List.filter_cons, hq, hp, List.length_cons]
      exact Nat.lt_succ_of_le
        (filter_length_le_of_imp p q as (fun y hy => h y (List.mem_cons_of_mem _ hy)))
    · have hlt := ih (fun y hy => h y (List.mem_cons_of_mem _ hy)) x hx' hp hq
      simp only [List.filter_cons]
      cases hqa : q a with
      | true =>
        rw [h a (List.mem_cons_self _ _) hqa]
        simp only [List.length_cons]
        exact Nat.succ_lt_succ hlt
      | false =>
        cases hpa : p a with
        | true =>
          simp only [List.length_cons]
          exact Nat.lt_succ_of_lt hlt
        | false => exact hlt

theorem unmarked_mono {v1 v2 : List (NodeId × VState)} (ids : List NodeId)
    (h : ∀ id, isMarked v1 id = true → isMarked v2 id = true) :
    unmarked ids v2 ≤ unmarked ids v1 := by
  unfold unmarked
  refine filter_length_le_of_imp _ _ ids ?_
  intro x _ hx
  cases hm : isMarked v1 x with
  | false => rfl
  | true =>
    rw [h x hm] at hx
    simp at hx

theorem unmarked_strict {ids : List NodeId} {vis : List (NodeId × VState)} {id : NodeId}
    (hmem : idMem ids id = true) (hm : isMarked vis id = false) :
    unmarked ids (visSet vis id VState.PartVisited) < unmarked ids vis := by
  unfold unmarked
  rcases List.any_eq_true.mp hmem with ⟨x, hx, hbx⟩
  refine filter_length_lt_of_flip _ _ ids ?_ x hx ?_ ?_
  · intro y _ hy
    cases hmy : isMarked vis y with
    | false => rfl
    | true =>
      have hset := visSet_marked id VState.PartVisited (fun hc => VState.noConfusion hc) hmy
      rw [hset] at hy
      simp at hy
  · rw [isMarked_congr hbx vis, hm]
    rfl
  · rw [visSet_marks_rel hbx vis (fun hc => VState.noConfusion hc)]
    rfl

theorem unmarked_zero {ids : List NodeId} {vis : List (NodeId × VState)} {id : NodeId}
    (hmem : idMem ids id = true) (h : unmarked ids vis = 0) :
    isMarked vis id = true := by
  unfold unmarked at h
  rcases List.any_eq_true.mp hmem with ⟨x, hx, hbx⟩
  have hall := List.filter_eq_nil.mp (List.length_eq_zero.mp h)
  have hxm := hall x hx
  rw [← isMarked_congr hbx vis]
  cases hv : isMarked vis x with
  | true => rfl
  | false =>
    exfalso
    exact hxm (by rw [hv]; rfl)

theorem unmarked_le_length (ids : List NodeId) (vis : List (NodeId × VState)) :
    unmarked ids vis ≤ ids.length :=
  List.length_filter_le _ ids

theorem foldl_length_le_k {α β : Type} (f : List α → β → List α) (k : Nat)
    (hstep : ∀ acc x, (f acc x).length ≤ acc.length + k) :
    ∀ (l : List β) (acc : List α), (l.foldl f acc).length ≤ acc.length + l.length * k := by
  intro l
  induction l with
  | nil =>
    intro acc
    simp
  | cons x xs ih =>
    intro acc
    simp only [List.foldl_cons, List.length_cons]
    calc (xs.foldl f (f acc x)).length ≤ (f acc x).length + xs.length * k := ih _
    _ ≤ acc.length + k + xs.length * k := Nat.add_le_add_right (hstep acc x) _
    _ = acc.length + (xs.length + 1) * k := by ring

theorem allDeps_mem {p : Package} {d : Dependency} (hd : d ∈ p.allRequires) :
    ∀ {ctx : List Package}, p ∈ ctx → d ∈ allDeps ctx := by
  intro ctx
  induction ctx with
  | nil =>
    intro h
    cases h
  | cons a as ih =>
    intro h
    simp only [allDeps]
    rcases List.mem_cons.mp h with heq | h'
    · subst heq
      exact List.mem_append_left _ hd
    · exact List.mem_append_right _ (ih h')

theorem allDeps_mem_le {p : Package} : ∀ {ctx : List Package}, p ∈ ctx →
    p.allRequires.length ≤ (allDeps ctx).length := by
  intro ctx
  induction ctx with
  | nil =>
    intro h
    cases h
  | cons a as ih =>
    intro h
    simp only [allDeps, List.length_append]
    rcases List.mem_cons.mp h with heq | h'
    · subst heq
      exact Nat.le_add_right _ _
    · exact Nat.le_trans (ih h') (Nat.le_add_left _ _)

theorem idsFor_mem (ds : List Dependency) {pkg : Package} {d : Dependency} :
    ∀ {l : List Package}, pkg ∈ l → d ∈ ds →
      (cnOf pkg, d.groups, d.optional) ∈ idsFor ds l := by
  intro l
  induction l with
  | nil =>
    intro h _
    cases h
  | cons a as ih =>
    intro h hd
    simp only [idsFor]
    rcases List.mem_cons.mp h with heq | h'
    · subst heq
      exact List.mem_append_left _ (List.mem_map.mpr ⟨d, hd, rfl⟩)
    · exact List.mem_append_right _ (ih h' hd)

theorem mem_allIds (root : Package) {ctx : List Package} {pkg : Package} {d : Dependency}
    (hp : pkg ∈ ctx) (hd : d ∈ allDeps ctx) :
    idMem (allIds root ctx) (cnOf pkg, d.groups, d.optional) = true := by
  simp only [idMem, allIds, List.any_eq_true]
  exact ⟨(cnOf pkg, d.groups, d.optional),
    List.mem_cons_of_mem _ (idsFor_mem (allDeps ctx) hp hd), idBeq_refl _⟩

theorem root_id_mem (root : Package) (ctx : List Package) :
    idMem (allIds root ctx) (nodeId (mkRoot root)) = true := by
  simp only [idMem, allIds, List.any_eq_true]
  exact ⟨nodeId (mkRoot root), List.mem_cons_self _ _, idBeq_refl _⟩

theorem reachable_length_le (ctx : List Package) (n : PNode) (seen : List Package) :
    ((reachable ctx n seen).1).length ≤ n.pkg.allRequires.length * ctx.length := by
  unfold reachable
  by_cases h : seenHas seen n.pkg = true
  · rw [if_pos h]
    exact Nat.zero_le _
  · rw [if_neg h]
    by_cases hr : edgeReplay n = true
    · rw [if_pos hr]
      exact Nat.zero_le _
    · rw [if_neg hr]
      simp only
      refine Nat.le_trans (foldl_length_le_k _ ctx.length ?_ _ _) (by simp)
      intro acc d
      by_cases hcg : cycleGuard n d = true
      · rw [if_pos hcg]
        exact Nat.le_add_right _ _
      · rw [if_neg hcg]
        refine Nat.le_trans (foldl_length_le_k _ 1 ?_ _ _) ?_
        · intro cs2 j
          by_cases hmatch : (depMatches d (ctx.getD (j + 1) dPkg)
              && !dupChild cs2 (ctx.getD (j + 1) dPkg) d) = true
          · rw [if_pos hmatch]
            simp
          · rw [if_neg hmatch]
            exact Nat.le_succ _
        · simp only [List.length_range, Nat.mul_one]
          omega

theorem reachable_id_bound (ctx : List Package) (n : PNode) (seen : List Package) :
    ∀ c ∈ (reachable ctx n seen).1,
      ∃ d ∈ n.pkg.allRequires, c.groups = d.groups ∧ c.optional = d.optional := by
  unfold reachable
  by_cases h : seenHas seen n.pkg = true
  · rw [if_pos h]
    intro c hc
    cases hc
  · rw [if_neg h]
    by_cases hr : edgeReplay n = true
    · rw [if_pos hr]
      intro c hc
      cases hc
    · rw [if_neg hr]
      simp only
      refine foldl_preserves
        (fun cs : List PNode => ∀ c ∈ cs,
          ∃ d ∈ n.pkg.allRequires, c.groups = d.groups ∧ c.optional = d.optional)
        _ _ _ ?_ ?_
      · intro c hc
        cases hc
      · intro cs d hd hcs
        by_cases hcg : cycleGuard n d = true
        · rw [if_pos hcg]
          exact hcs
        · rw [if_neg hcg]
          refine foldl_preserves
            (fun cs2 : List PNode => ∀ c ∈ cs2,
              ∃ d ∈ n.pkg.allRequires, c.groups = d.groups ∧ c.optional = d.optional)
            _ _ _ hcs ?_
          intro cs2 j hj hcs2
          by_cases hmatch : (depMatches d (ctx.getD (j + 1) dPkg)
              && !dupChild cs2 (ctx.getD (j + 1) dPkg) d) = true
          · rw [if_pos hmatch]
            intro c hc
            rcases List.mem_append.mp hc with hc' | hc'
            · exact hcs2 c hc'
            · have hceq : c = mkChild (j + 1) (ctx.getD (j + 1) dPkg) n d :=
                List.mem_singleton.mp hc'
              subst hceq
              exact ⟨d, hd, rfl, rfl⟩
          · rw [if_neg hmatch]
            exact hcs2

theorem dfsGo_marks (fuel : Nat) : ∀ (ctx : List Package) (task : DfsTask) (st : DfsState)
    (b : Bool) (st' : DfsState), dfsGo fuel ctx task st = some (b, st') →
    ∀ id, isMarked st.visited id = true → isMarked st'.visited id = true := by
  induction fuel with
  | zero =>
    intro ctx task st b st' h
    exact absurd h (by simp [dfsGo])
  | succ f ih =>
    intro ctx task st b st' h
    cases task with
    | visit node =>
      simp only [dfsGo] at h
      split at h
      · obtain ⟨rfl, rfl⟩ := some_pair_inj h
        exact fun id hm => hm
      · obtain ⟨rfl, rfl⟩ := some_pair_inj h
        exact fun id hm => hm
      · split at h
        · simp at h
        · next st3 hrec =>
          obtain ⟨rfl, rfl⟩ := some_pair_inj h
          intro id hm
          exact ih _ _ _ _ _ hrec id
            (visSet_marked _ _ (fun hc => VState.noConfusion hc) hm)
        · next st3 hrec =>
          obtain ⟨rfl, rfl⟩ := some_pair_inj h
          intro id hm
          exact visSet_marked _ _ (fun hc => VState.noConfusion hc)
            (ih _ _ _ _ _ hrec id
              (visSet_marked _ _ (fun hc => VState.noConfusion hc) hm))
    | children cs parentIdx =>
      cases cs with
      | nil =>
        simp only [dfsGo] at h
        obtain ⟨rfl, rfl⟩ := some_pair_inj h
        exact fun id hm => hm
      | cons c rest =>
        simp only [dfsGo] at h
        split at h
        · simp at h
        · next st2 hrec =>
          obtain ⟨rfl, rfl⟩ := some_pair_inj h
          exact fun id hm => ih _ _ _ _ _ hrec id hm
        · next st2 hrec =>
          exact fun id hm => ih _ _ _ _ _ h id (ih _ _ _ _ _ hrec id hm)

theorem dfsGo_visit_step {ctx : List Package} {node : PNode} {st : DfsState} {f : Nat}
    (hm : isMarked st.visited (nodeId node) = false) :
    dfsGo (f + 1) ctx (DfsTask.visit node) st =
      match dfsGo f ctx (DfsTask.children (reachable ctx node st.seen).1 st.store.length)
        { st with visited := visSet st.visited (nodeId node) VState.PartVisited,
                  store := st.store ++ [node], seen := (reachable ctx node st.seen).2 } with
      | none => none
      | some (false, st3) => some (false, st3)
      | some (true, st3) =>
        some (true, { st3 with
          visited := visSet st3.visited (nodeId node) VState.Visited,
          sorted := st.store.length :: st3.sorted }) := by
  cases hvg : visGet st.visited (nodeId node) with
  | none => simp only [dfsGo, hvg]
  | some vs =>
    cases vs with
    | Unvisited => simp only [dfsGo, hvg]
    | PartVisited => simp [isMarked, hvg] at hm
    | Visited => simp [isMarked, hvg] at hm

theorem dfsGo_total (root : Package) (ctx : List Package) (fuel : Nat) :
    ∀ (task : DfsTask) (st : DfsState),
      TaskIds root ctx task →
      taskCost (dfsK ctx) (unmarked (allIds root ctx) st.visited) task ≤ fuel →
      (dfsGo fuel ctx task st).isSome = true := by
  induction fuel with
  | zero =>
    intro task st htask hcost
    exfalso
    cases task with
    | visit n =>
      simp only [taskCost] at hcost
      have := vBound_pos (dfsK ctx) (unmarked (allIds root ctx) st.visited)
      omega
    | children cs p =>
      simp only [taskCost] at hcost
      omega
  | succ f ih =>
    intro task st htask hcost
    cases task with
    | visit node =>
      obtain ⟨hid, hpkg⟩ := htask
      by_cases hm : isMarked st.visited (nodeId node) = true
      · cases hvg : visGet st.visited (nodeId node) with
        | none => simp [isMarked, hvg] at hm
        | some vs =>
          cases vs with
          | Unvisited => simp [isMarked, hvg] at hm
          | PartVisited => simp [dfsGo, hvg]
          | Visited => simp [dfsGo, hvg]
      · have hm' : isMarked st.visited (nodeId node) = false := Bool.eq_false_iff.mpr hm
        rw [dfsGo_visit_step hm']
        simp only [taskCost] at hcost
        have hdec : unmarked (allIds root ctx)
            (visSet st.visited (nodeId node) VState.PartVisited)
            < unmarked (allIds root ctx) st.visited := unmarked_strict hid hm'
        obtain ⟨u', hu⟩ : ∃ u', unmarked (allIds root ctx) st.visited = u' + 1 :=
          ⟨unmarked (allIds root ctx) st.visited - 1, by omega⟩
        rw [hu] at hcost
        simp only [vBound] at hcost
        have hu2 : unmarked (allIds root ctx)
            (visSet st.visited (nodeId node) VState.PartVisited) ≤ u' := by omega
        have hvb := vBound_mono (dfsK ctx) hu2
        have hcs_len : ((reachable ctx node st.seen).1).length ≤ dfsK ctx := by
          refine Nat.le_trans (reachable_length_le ctx node st.seen) ?_
          unfold dfsK
          exact Nat.mul_le_mul_right _ (allDeps_mem_le (List.get?_mem hpkg))
        have hmul : ((reachable ctx node st.seen).1).length
            * (1 + vBound (dfsK ctx) (unmarked (allIds root ctx)
                (visSet st.visited (nodeId node) VState.PartVisited)))
            ≤ dfsK ctx * (1 + vBound (dfsK ctx) u') :=
          Nat.mul_le_mul hcs_len (Nat.add_le_add_left hvb 1)
        have htids : TaskIds root ctx (DfsTask.children
            (reachable ctx node st.seen).1 st.store.length) := by
          intro c hc
          obtain ⟨hcp, _⟩ := reachable_bound ctx node st.seen c hc
          rcases reachable_id_bound ctx node st.seen c hc with ⟨d, hd, hg, ho⟩
          refine ⟨?_, hcp⟩
          have hdm : d ∈ allDeps ctx := allDeps_mem hd (List.get?_mem hpkg)
          have hma := mem_allIds root (List.get?_mem hcp) hdm
          simp only [nodeId]
          rw [hg, ho]
          exact hma
        have hcost2 : taskCost (dfsK ctx) (unmarked (allIds root ctx)
            (visSet st.visited (nodeId node) VState.PartVisited))
            (DfsTask.children (reachable ctx node st.seen).1 st.store.length) ≤ f := by
          simp only [taskCost]
          generalize hKX : dfsK ctx * (1 + vBound (dfsK ctx) u') = KX at hcost hmul
          omega
        have hrec := ih (DfsTask.children (reachable ctx node st.seen).1 st.store.length)
          { st with visited := visSet st.visited (nodeId node) VState.PartVisited,
                    store := st.store ++ [node], seen := (reachable ctx node st.seen).2 }
          htids hcost2
        cases hrec2 : dfsGo f ctx
            (DfsTask.children (reachable ctx node st.seen).1 st.store.length)
            { st with visited := visSet st.visited (nodeId node) VState.PartVisited,
                      store := st.store ++ [node],
                      seen := (reachable ctx node st.seen).2 } with
        | none =>
          rw [hrec2] at hrec
          simp at hrec
        | some r =>
          obtain ⟨b, st3⟩ := r
          cases b with
          | false => rfl
          | true => rfl
    | children cs parentIdx =>
      cases cs with
      | nil => simp [dfsGo]
      | cons c rest =>
        simp only [dfsGo]
        simp only [taskCost, List.length_cons, Nat.succ_mul] at hcost
        have hVle : vBound (dfsK ctx) (unmarked (allIds root ctx) st.visited) ≤ f := by
          generalize hA : rest.length
            * (1 + vBound (dfsK ctx) (unmarked (allIds root ctx) st.visited)) = A at hcost
          omega
        have hhead : TaskIds root ctx (DfsTask.visit c) := htask c (List.mem_cons_self _ _)
        have hrec := ih (DfsTask.visit c)
          { st with backEdges := beAdd st.backEdges (nodeId c) parentIdx } hhead hVle
        cases hrec2 : dfsGo f ctx (DfsTask.visit c)
            { st with backEdges := beAdd st.backEdges (nodeId c) parentIdx } with
        | none =>
          rw [hrec2] at hrec
          simp at hrec
        | some r =>
          obtain ⟨b, st2⟩ := r
          cases b with
          | false => rfl
          | true =>
            have hmarks := dfsGo_marks f ctx (DfsTask.visit c)
              { st with backEdges := beAdd st.backEdges (nodeId c) parentIdx } true st2 hrec2
            have hmono : unmarked (allIds root ctx) st2.visited
                ≤ unmarked (allIds root ctx) st.visited :=
              unmarked_mono (allIds root ctx) hmarks
            have hvb := vBound_mono (dfsK ctx) hmono
            have hmul : rest.length * (1 + vBound (dfsK ctx)
                  (unmarked (allIds root ctx) st2.visited))
                ≤ rest.length * (1 + vBound (dfsK ctx)
                  (unmarked (allIds root ctx) st.visited)) :=
              mul_le_mul_left' (Nat.add_le_add_left hvb 1) rest.length
            refine ih (DfsTask.children rest parentIdx) st2
              (fun c' hc' => htask c' (List.mem_cons_of_mem _ hc')) ?_
            simp only [taskCost]
            generalize hA : rest.length
              * (1 + vBound (dfsK ctx) (unmarked (allIds root ctx) st.visited)) = A
              at hcost hmul
            generalize hB : rest.length
              * (1 + vBound (dfsK ctx) (unmarked (allIds root ctx) st2.visited)) = B
              at hmul
            omega

/-- C8: cycle tolerance and termination.  For every root project and engine
result (in particular any resolved set containing a dependency cycle), the
depth-first search completes: any fuel at least `vBound` of the finite node
identity universe suffices for `dfs_visit` to return a result — the
`PartiallyVisited` early return, the shared `seen` list and the length-2 cycle
guard together strictly shrink the unmarked identity count at every expansion.
Moreover, whenever `_solve` returns, every complete name occurring exactly
once among the non-feature engine packages is emitted exactly once. -/
theorem C8_cycle_termination (root : Package) (packages : List Package) :
    (∀ fuel,
        vBound (dfsK (root :: packages)) (allIds root (root :: packages)).length ≤ fuel →
        (dfs_visit fuel (root :: packages) (mkRoot root) initState).isSome = true)
    ∧ (∀ fuel fp ds (p : Package), solvePost root packages fuel = some (fp, ds) →
        ((packages.filter (fun q => q.features.isEmpty)).map cnOf).count (cnOf p) = 1 →
        (fp.map cnOf).count (cnOf p) = 1) := by
  constructor
  · intro fuel hf
    have htids : TaskIds root (root :: packages) (DfsTask.visit (mkRoot root)) := by
      refine ⟨root_id_mem root (root :: packages), ?_⟩
      rfl
    refine dfsGo_total root (root :: packages) fuel (DfsTask.visit (mkRoot root))
      initState htids ?_
    simp only [taskCost]
    exact Nat.le_trans (vBound_mono _ (unmarked_le_length _ _)) hf
  · intro fuel fp ds p h hcount
    simp only [solvePost] at h
    split at h
    · cases h
    · next results ctx2 hdfs =>
      split at h
      · cases h
      · next pairs hemit =>
        obtain ⟨hfp, _⟩ := some_pair_inj h
        have hsim := depth_first_search_ctx_sim root packages fuel results ctx2 hdfs
        have hnf1 : ListNF packages (ctx2.drop 1) :=
          drop_one_nf root packages ctx2 hsim.1 hsim.2
        have hnf2 : ListNF (ctx2.drop 1) (featureMergePass (ctx2.drop 1)) :=
          listExt_nf (featureMergePass_ext _)
        have hnf := listNF_trans hnf1 hnf2
        have hfilter := filter_map_cn (listNF_forall2 _ _ hnf)
        have hfst := emitFinal_fst results _ pairs hemit
        have hmap : fp.map cnOf
            = (packages.filter (fun q => q.features.isEmpty)).map cnOf := by
          rw [← hfp, hfst]
          exact hfilter
        rw [hmap]
        exact hcount

/-- Witness for C8 on the length-2 cycle scenario S3 (`a` requires `b` and `b`
requires `a`): the DFS succeeds at the computed fuel bound, and the concrete
solve emits each of `a` and `b` exactly once. -/
theorem C8_cycle_termination_witness :
    (dfs_visit
        (vBound (dfsK (rootS3 :: [aS3, bS3])) (allIds rootS3 (rootS3 :: [aS3, bS3])).length)
        (rootS3 :: [aS3, bS3]) (mkRoot rootS3) initState).isSome = true
    ∧ ∃ fp ds, solvePost rootS3 [aS3, bS3] 13 = some (fp, ds)
        ∧ (fp.map cnOf).count (cnOf aS3) = 1
        ∧ (fp.map cnOf).count (cnOf bS3) = 1 := by
  refine ⟨(C8_cycle_termination rootS3 [aS3, bS3]).1 _ (Nat.le_refl _), ?_⟩
  cases hres : solvePost rootS3 [aS3, bS3] 13 with
  | none =>
    have hsome : (solvePost rootS3 [aS3, bS3] 13).isSome = true := by decide
    rw [hres] at hsome
    simp at hsome
  | some r =>
    exact ⟨r.1, r.2, rfl,
      (C8_cycle_termination rootS3 [aS3, bS3]).2 13 r.1 r.2 aS3 (by rw [hres]) (by decide),
      (C8_cycle_termination rootS3 [aS3, bS3]).2 13 r.1 r.2 bS3 (by rw [hres]) (by decide)⟩
